import Mathlib

/-!
Verification of the Decaf compiler back-end (TAC lowering, vtable layout,
CFG construction and dataflow sets) against its natural-language
specification.  The definitions below are a shallow embedding of the C++
sources: `tac.h` (the `Location` and `Instruction` classes and their
`Kill`/`Gen` sets), `codegen.cc` (the `CodeGenerator` singleton and its
`Gen*` primitives, `CollectLabels`, `BuildControlFlow`), `ast_decl.cc`
(`ClassDecl::CollectFn`, `FnDecl::IsMatched`, `FnDecl::Emit`),
`ast_expr.cc` and `ast_stmt.cc` (the `Emit` methods of the expression and
statement nodes).
-/

namespace Decaf

/-- Modelled from the spec: the word size `VarSize` from `codegen.h`
(not under src/); the spec fixes it as the single machine word,
"typically 4 bytes". -/
def VarSize : Int := 4

/-- Modelled from the spec: `OffsetToFirstParam` from `codegen.h`
(not under src/); the first parameter lives at a positive fp-relative
offset, one word above the saved state. -/
def OffsetToFirstParam : Int := 4

/-- Modelled from the spec: `OffsetToFirstLocal` from `codegen.h`
(not under src/); the first local lives at a negative fp-relative offset
and the frame grows downward in word-sized steps. -/
def OffsetToFirstLocal : Int := -8

/-- Modelled from the spec: `OffsetToFirstGlobal` from `codegen.h`
(not under src/); globals are laid out upward from the gp base. -/
def OffsetToFirstGlobal : Int := 0

/-- The `Segment` enum of `tac.h`: a Location is fp- or gp-relative. -/
inductive Segment where
  | fpRelative
  | gpRelative
deriving DecidableEq, Repr

/-- The `Location` class of `tac.h`.  `id` models the C++ object identity
(the pointer value): each `new Location(...)` yields a fresh `id`.  The
remaining fields mirror `variableName`, `segment` and `offset`. -/
structure Location where
  id : Nat
  name : String
  segment : Segment
  offset : Int
deriving DecidableEq, Repr

/-- The null `Location*` pointer (id 0; real allocations start at id 1). -/
def nullLoc : Location := ⟨0, "", Segment.fpRelative, 0⟩

/-- The key under which a Location is stored in a `LocationSet`
(`std::set<Location *>` in `tac.h`): the pointer value itself, i.e. the
allocation identity, not the `(segment, offset)` pair. -/
def Location.key (l : Location) : Nat := l.id

/-- `LocationSet` from `tac.h`: `std::set<Location *>` — a set of pointer
keys. -/
abbrev LocationSet := Finset Nat

/-- The TAC instruction set: one constructor per concrete `Instruction`
subclass of `tac.h`, with the operand fields of each class.  `Return`
always carries the value Location handed to `CodeGenerator::GenReturn`;
`LCall`/`ACall` carry an optional destination (NULL for void calls). -/
inductive Instr where
  | LoadConstant (dst : Location) (val : Int)
  | LoadStringConstant (dst : Location) (str : String)
  | LoadLabel (dst : Location) (label : String)
  | Assign (dst src : Location)
  | Load (dst src : Location) (offset : Int)
  | Store (dst src : Location) (offset : Int)
  | BinaryOp (op : String) (dst op1 op2 : Location)
  | Label (label : String)
  | Goto (label : String)
  | IfZ (test : Location) (label : String)
  | BeginFunc (frameSize : Int)
  | EndFunc
  | Return (val : Location)
  | PushParam (param : Location)
  | PopParams (numBytes : Int)
  | LCall (label : String) (dst : Option Location)
  | ACall (methodAddr : Location) (dst : Option Location)
  | VTable (label : String) (methodLabels : List String)
deriving DecidableEq, Repr

/-- The `Kill` sets of `tac.h`, exactly as each subclass overrides
`Instruction::Kill` (note in particular `Store::Kill() { return {dst}; }`
and `Return::Kill() { return {val}; }` as written in the source). -/
def Kill : Instr → LocationSet
  | .LoadConstant dst _ => {dst.key}
  | .LoadStringConstant dst _ => {dst.key}
  | .LoadLabel dst _ => {dst.key}
  | .Assign dst _ => {dst.key}
  | .Load dst _ _ => {dst.key}
  | .Store dst _ _ => {dst.key}
  | .BinaryOp _ dst _ _ => {dst.key}
  | .Return val => {val.key}
  | .LCall _ dst => match dst with
    | some d => {d.key}
    | none => {}
  | .ACall _ dst => match dst with
    | some d => {d.key}
    | none => {}
  | _ => {}

/-- The `Gen` sets of `tac.h`, exactly as each subclass overrides
`Instruction::Gen` (note that `Store` only overrides `Gen` to `{src}` and
`Return` does not override `Gen` at all). -/
def Gen : Instr → LocationSet
  | .Assign _ src => {src.key}
  | .Load _ src _ => {src.key}
  | .Store _ src _ => {src.key}
  | .BinaryOp _ _ op1 op2 => {op1.key, op2.key}
  | .IfZ test _ => {test.key}
  | .PushParam param => {param.key}
  | .ACall methodAddr _ => {methodAddr.key}
  | _ => {}

/-- The mutable state of the `CodeGenerator` singleton (`codegen.cc`):
the append-only instruction stream, the static counters behind
`GenTempVar` (`nextTempNum`) and `NewLabel` (`nextLabelNum`), the
per-function `localCounter`/`paramCounter`, the `globalCounter`, and
`nextPtr`, which models the allocator handing out fresh `Location`
identities (pointers). -/
structure GenSt where
  code : List Instr
  nextTmp : Nat
  nextLbl : Nat
  localCnt : Nat
  paramCnt : Nat
  globalCnt : Nat
  nextPtr : Nat
deriving Repr

/-- The initial code-generator state. -/
def st0 : GenSt := ⟨[], 0, 0, 0, 0, 0, 1⟩

/-- Append one instruction to the stream (`code->Append(...)`). -/
def emit1 (i : Instr) (s : GenSt) : GenSt := { s with code := s.code ++ [i] }

/-- `CodeGenerator::NewLabel`: mint the label `_L<n>`. -/
def newLabel (s : GenSt) : GenSt × String :=
  ({ s with nextLbl := s.nextLbl + 1 }, "_L" ++ toString s.nextLbl)

/-- `CodeGenerator::GenTempVar`: a fresh temporary named `_tmp<n>` at
fp-relative offset `OffsetToFirstLocal - VarSize * localCounter`,
post-incrementing `localCounter`. -/
def genTempVar (s : GenSt) : GenSt × Location :=
  ({ s with nextTmp := s.nextTmp + 1, localCnt := s.localCnt + 1,
            nextPtr := s.nextPtr + 1 },
   ⟨s.nextPtr, "_tmp" ++ toString s.nextTmp, Segment.fpRelative,
    OffsetToFirstLocal - VarSize * s.localCnt⟩)

/-- `CodeGenerator::GenLocalVar`: a named local drawn from the same
`localCounter` as temporaries. -/
def genLocalVar (name : String) (s : GenSt) : GenSt × Location :=
  ({ s with localCnt := s.localCnt + 1, nextPtr := s.nextPtr + 1 },
   ⟨s.nextPtr, name, Segment.fpRelative,
    OffsetToFirstLocal - VarSize * s.localCnt⟩)

/-- `CodeGenerator::GenGlobalVar`. -/
def genGlobalVar (name : String) (s : GenSt) : GenSt × Location :=
  ({ s with globalCnt := s.globalCnt + 1, nextPtr := s.nextPtr + 1 },
   ⟨s.nextPtr, name, Segment.gpRelative,
    OffsetToFirstGlobal + VarSize * s.globalCnt⟩)

/-- `CodeGenerator::GenParamVar`. -/
def genParamVar (name : String) (s : GenSt) : GenSt × Location :=
  ({ s with paramCnt := s.paramCnt + 1, nextPtr := s.nextPtr + 1 },
   ⟨s.nextPtr, name, Segment.fpRelative,
    OffsetToFirstParam + VarSize * s.paramCnt⟩)

/-- `CodeGenerator::GenThis`: every call allocates a brand-new `Location`
at `(fpRelative, OffsetToFirstParam)` named `this`. -/
def genThis (s : GenSt) : GenSt × Location :=
  ({ s with nextPtr := s.nextPtr + 1 },
   ⟨s.nextPtr, "this", Segment.fpRelative, OffsetToFirstParam⟩)

/-- `CodeGenerator::GenLoadConstant(int)`. -/
def genLoadConstant (v : Int) (s : GenSt) : GenSt × Location :=
  let p := genTempVar s
  (emit1 (.LoadConstant p.2 v) p.1, p.2)

/-- `CodeGenerator::GenLoadConstant(const char *)`. -/
def genLoadStringConstant (str : String) (s : GenSt) : GenSt × Location :=
  let p := genTempVar s
  (emit1 (.LoadStringConstant p.2 str) p.1, p.2)

/-- `CodeGenerator::GenLoadLabel`. -/
def genLoadLabel (label : String) (s : GenSt) : GenSt × Location :=
  let p := genTempVar s
  (emit1 (.LoadLabel p.2 label) p.1, p.2)

/-- `CodeGenerator::GenAssign`. -/
def genAssign (dst src : Location) (s : GenSt) : GenSt :=
  emit1 (.Assign dst src) s

/-- `CodeGenerator::GenLoad`. -/
def genLoad (ref : Location) (offset : Int) (s : GenSt) : GenSt × Location :=
  let p := genTempVar s
  (emit1 (.Load p.2 ref offset) p.1, p.2)

/-- `CodeGenerator::GenStore`. -/
def genStore (dst src : Location) (offset : Int) (s : GenSt) : GenSt :=
  emit1 (.Store dst src offset) s

/-- `CodeGenerator::GenBinaryOp`. -/
def genBinaryOp (op : String) (op1 op2 : Location) (s : GenSt) :
    GenSt × Location :=
  let p := genTempVar s
  (emit1 (.BinaryOp op p.2 op1 op2) p.1, p.2)

/-- `CodeGenerator::GenLabel`. -/
def genLabel (label : String) (s : GenSt) : GenSt := emit1 (.Label label) s

/-- `CodeGenerator::GenIfZ`. -/
def genIfZ (test : Location) (label : String) (s : GenSt) : GenSt :=
  emit1 (.IfZ test label) s

/-- `CodeGenerator::GenGoto`. -/
def genGoto (label : String) (s : GenSt) : GenSt := emit1 (.Goto label) s

/-- `CodeGenerator::GenReturn`. -/
def genReturn (val : Location) (s : GenSt) : GenSt := emit1 (.Return val) s

/-- `CodeGenerator::GenEndFunc`: appends `EndFunc` and resets the
per-function `localCounter` and `paramCounter`. -/
def genEndFunc (s : GenSt) : GenSt :=
  { s with code := s.code ++ [Instr.EndFunc], localCnt := 0, paramCnt := 0 }

/-- `CodeGenerator::GenPushParam`. -/
def genPushParam (param : Location) (s : GenSt) : GenSt :=
  emit1 (.PushParam param) s

/-- `CodeGenerator::GenPopParams`: appends `PopParams` only when the byte
count is strictly positive (`if (numBytesOfParams > 0)`). -/
def genPopParams (numBytes : Int) (s : GenSt) : GenSt :=
  if numBytes > 0 then emit1 (.PopParams numBytes) s else s

/-- `CodeGenerator::GenLCall`: allocates the result temporary first (when
the callee has a return value), then appends the `LCall`. -/
def genLCall (label : String) (hasRet : Bool) (s : GenSt) :
    GenSt × Option Location :=
  if hasRet then
    let p := genTempVar s
    (emit1 (.LCall label (some p.2)) p.1, some p.2)
  else (emit1 (.LCall label none) s, none)

/-- `CodeGenerator::GenACall`. -/
def genACall (fnAddr : Location) (hasRet : Bool) (s : GenSt) :
    GenSt × Option Location :=
  if hasRet then
    let p := genTempVar s
    (emit1 (.ACall fnAddr (some p.2)) p.1, some p.2)
  else (emit1 (.ACall fnAddr none) s, none)

/-- `CodeGenerator::GenVTable`. -/
def genVTable (className : String) (methodLabels : List String) (s : GenSt) :
    GenSt :=
  emit1 (.VTable className methodLabels) s

/-- `CodeGenerator::GetFrameSize`: `VarSize * localCounter`. -/
def getFrameSize (s : GenSt) : Int := VarSize * (s.localCnt : Int)

/-- The built-in enum of `codegen.h` (order matches the `builtins[]`
table in `codegen.cc`). -/
inductive BuiltIn where
  | Alloc
  | ReadLine
  | ReadInteger
  | StringEqual
  | PrintInt
  | PrintString
  | PrintBool
  | Halt
deriving DecidableEq, Repr

/-- The `label` column of the `builtins[]` table. -/
def builtinLabel : BuiltIn → String
  | .Alloc => "_Alloc"
  | .ReadLine => "_ReadLine"
  | .ReadInteger => "_ReadInteger"
  | .StringEqual => "_StringEqual"
  | .PrintInt => "_PrintInt"
  | .PrintString => "_PrintString"
  | .PrintBool => "_PrintBool"
  | .Halt => "_Halt"

/-- The `numArgs` column of the `builtins[]` table. -/
def builtinNumArgs : BuiltIn → Nat
  | .Alloc => 1
  | .ReadLine => 0
  | .ReadInteger => 0
  | .StringEqual => 2
  | .PrintInt => 1
  | .PrintString => 1
  | .PrintBool => 1
  | .Halt => 0

/-- The `hasReturn` column of the `builtins[]` table. -/
def builtinHasReturn : BuiltIn → Bool
  | .Alloc => true
  | .ReadLine => true
  | .ReadInteger => true
  | .StringEqual => true
  | _ => false

/-- `CodeGenerator::GenBuiltInCall`: allocate the result temporary when
the built-in returns a value, push `arg2` then `arg1` (reverse order),
append the `LCall` on the table label, then `GenPopParams(VarSize *
numArgs)` (which emits nothing for zero-argument built-ins).  The arity
`Assert` of the source is a checked-caller contract and is not modelled
as a crash. -/
def genBuiltInCall (bn : BuiltIn) (arg1 arg2 : Option Location) (s : GenSt) :
    GenSt × Option Location :=
  let p : GenSt × Option Location :=
    if builtinHasReturn bn then
      let q := genTempVar s
      (q.1, some q.2)
    else (s, none)
  let s1 := match arg2 with
    | some a2 => genPushParam a2 p.1
    | none => p.1
  let s2 := match arg1 with
    | some a1 => genPushParam a1 s1
    | none => s1
  let s3 := emit1 (.LCall (builtinLabel bn) p.2) s2
  (genPopParams (VarSize * (builtinNumArgs bn : Int)) s3, p.2)

/-! The layout planner: `ClassDecl::CollectFn` and `FnDecl::IsMatched`
from `ast_decl.cc`, with the type-equivalence tests of `ast_type.h`. -/

/-- The seven shared primitive type singletons of `ast_type.cc`. -/
inductive PrimT where
  | int
  | double
  | bool
  | voidT
  | nullT
  | stringT
  | errorT
deriving DecidableEq, Repr

/-- The name string of a primitive singleton. -/
def primName : PrimT → String
  | .int => "int"
  | .double => "double"
  | .bool => "bool"
  | .voidT => "void"
  | .nullT => "null"
  | .stringT => "string"
  | .errorT => "error"

/-- The `Type` hierarchy of `ast_type.h`: the base-class singletons,
`NamedType` and `ArrayType`. -/
inductive Ty where
  | prim (p : PrimT)
  | named (n : String)
  | arr (elem : Ty)
deriving DecidableEq, Repr

/-- `Type::GetName` / `NamedType::GetName` / the `typeName` built by the
`ArrayType` constructor (element name followed by brackets). -/
def Ty.tyName : Ty → String
  | .prim p => primName p
  | .named n => n
  | .arr e => e.tyName ++ "[]"

/-- `IsEquivalentTo`, dispatched on the first argument as in C++:
the base class compares pointers (so a singleton is equivalent only to
itself), while `NamedType` and `ArrayType` compare name strings. -/
def Ty.isEquivalentTo : Ty → Ty → Bool
  | .prim p, t =>
    match t with
    | .prim q => p = q
    | _ => false
  | .named n, t => n = t.tyName
  | .arr e, t => e.tyName ++ "[]" = t.tyName

/-- The signature data of a `FnDecl` used by `IsMatched` and
`CollectFn`: name, return type and formal parameter types. -/
structure Fn where
  name : String
  ret : Ty
  formals : List Ty
deriving DecidableEq, Repr

/-- `FnDecl::IsMatched`: same name, equivalent return type, same formal
count, and pairwise equivalent formal types. -/
def isMatched (fn other : Fn) : Bool :=
  fn.name = other.name
    && fn.ret.isEquivalentTo other.ret
    && fn.formals.length = other.formals.length
    && (fn.formals.zip other.formals).all fun p => p.1.isEquivalentTo p.2

/-- One vtable slot: the method and the byte offset stored in it by
`FnDecl::SetOffset`. -/
structure VEntry where
  fn : Fn
  offset : Int
deriving DecidableEq, Repr

/-- The method name sitting in a vtable slot. -/
def entryName (e : VEntry) : String := e.fn.name

/-- The offsets of the vtable slots whose method `fn` matches, in slot
order (`fn->SetOffset(method->GetOffset())` runs once per matching slot,
so the last one wins). -/
def matchedOffsets (ms : List VEntry) (fn : Fn) : List Int :=
  (ms.filter fun m => isMatched fn m.fn).map VEntry.offset

/-- Appending a non-overriding method: slot index `len(vtable)`, offset
`len(vtable) * VarSize` (`ClassDecl::CollectFn`, append branch). -/
def appendFresh (ms : List VEntry) (fn : Fn) : List VEntry :=
  ms ++ [⟨fn, (ms.length : Int) * VarSize⟩]

/-- Processing one member function against the inherited table
(`ClassDecl::CollectFn`, inner loop): every matching slot is replaced by
`fn` (all replaced slots share the one `FnDecl`, whose offset ends up as
the last matching slot's offset); if no slot matches, `fn` is appended as
a fresh slot. -/
def collectOne (ms : List VEntry) (fn : Fn) : List VEntry :=
  match (matchedOffsets ms fn).getLast? with
  | some off => ms.map fun m => if isMatched fn m.fn then ⟨fn, off⟩ else m
  | none => appendFresh ms fn

/-- `ClassDecl::CollectFn`: with a base class, start from a copy of the
base's vtable and fold the members through `collectOne`; without a base,
append every member unconditionally. -/
def collectFn (base : Option (List VEntry)) (members : List Fn) :
    List VEntry :=
  match base with
  | some ms => members.foldl collectOne ms
  | none => members.foldl appendFresh []

/-- A vtable with no holes: the slot at index `k` carries byte offset
`k * VarSize`. -/
def Dense (ms : List VEntry) : Prop :=
  ∀ k e, ms.get? k = some e → e.offset = (k : Int) * VarSize

/-- How many vtable slots carry a method of the given name. -/
def nameCount (ms : List VEntry) (n : String) : Nat :=
  (ms.filter fun m => entryName m = n).length

/-! The CFG builder: `CodeGenerator::CollectLabels` and
`CodeGenerator::BuildControlFlow` from `codegen.cc`, with the `AddSucc`
dispatch of the instruction classes.  Instructions are identified by
their index in the stream. -/

/-- `CodeGenerator::CollectLabels`: the label table maps a label string
to the first `Label` instruction bearing it (`std::map::emplace` keeps
the first insertion). -/
def collectLabels (code : List Instr) (l : String) : Option Nat :=
  code.findIdx? fun i =>
    match i with
    | .Label m => m = l
    | _ => false

/-- Is the instruction a `VTable` record? -/
def isVTableInstr : Instr → Bool
  | .VTable _ _ => true
  | _ => false

/-- The `AddSucc` dispatch for one instruction, given the label table and
the index of the textually next instruction: `Goto` appends only the
label target (`Goto::AddSucc` in `codegen.cc`), `IfZ` appends the next
instruction then the target (`IfZ::AddSucc`), `EndFunc`, `Return` and
`VTable` append nothing (their empty `AddSucc` overrides in `tac.h`), and
every other instruction appends the next instruction
(`Instruction::AddSucc`).  `none` models the uncaught
`std::map::at` exception on an unbound label. -/
def instrSucc (lm : String → Option Nat) (inst : Instr) (next : Nat) :
    Option (List Nat) :=
  match inst with
  | .Goto l => (lm l).map fun t => [t]
  | .IfZ _ l => (lm l).map fun t => [next, t]
  | .EndFunc => some []
  | .Return _ => some []
  | .VTable _ _ => some []
  | _ => some [next]

/-- The successor lists of the `n` instructions starting at index `i`
(the loop body of `BuildControlFlow`: `code->Nth(i)->AddSucc(code->Nth(i
+ 1))`). -/
def buildRange (lm : String → Option Nat) (code : List Instr) (i : Nat) :
    Nat → Option (List (List Nat))
  | 0 => some []
  | Nat.succ n =>
    match instrSucc lm (code.getD i Instr.EndFunc) (i + 1),
        buildRange lm code (i + 1) n with
    | some ss, some rest => some (ss :: rest)
    | _, _ => none

/-- `CodeGenerator::BuildControlFlow(begin, end)`: successors for every
instruction index in `[begin, end)`, resolved through the label table of
the whole stream. -/
def buildControlFlow (code : List Instr) (b e : Nat) :
    Option (List (List Nat)) :=
  buildRange (collectLabels code) code b (e - b)

/-- The claimed successor set, written from the spec's words: every
instruction gets the textually next instruction as fallthrough successor
except `Goto`, `EndFunc` and `Return`, and `Goto`/`IfZ` additionally get
the instruction bound to their target label. -/
def c7SuccSpec (lm : String → Option Nat) (inst : Instr) (next : Nat) :
    List Nat :=
  (match inst with
   | .Goto _ => []
   | .EndFunc => []
   | .Return _ => []
   | _ => [next])
  ++ (match inst with
      | .Goto l => [(lm l).getD 0]
      | .IfZ _ l => [(lm l).getD 0]
      | _ => [])

/-! The lowering engine: the `Emit` methods of `ast_expr.cc`, as a
shallow embedding over the checked AST.  Symbol resolution has already
happened (the AST "arrives checked"), so nodes carry their resolved
data: a `FieldAccess` carries either the variable's `Location` (local,
parameter or global, from `VarDecl::Emit`) or its field offset; a `Call`
carries the resolved target (global function label, method vtable offset,
or the array-length pseudo-function) and whether the callee returns a
value; an `EqualityExpr` carries whether the operands are strings. -/

/-- The shape of an expression's yielded value. -/
inductive Form where
  | direct
  | address
  | voidv
deriving DecidableEq, Repr

/-- The value an expression node yields after `Emit`: `direct` models a
set `valLoc`, `address` models an `LValue` that filled `addr`/`offset`
instead, and `voidv` models a NULL `valLoc` (a void call). -/
inductive EVal where
  | direct (loc : Location)
  | address (addr : Location) (offset : Int)
  | voidv
deriving DecidableEq, Repr

/-- The shape of an `EVal`. -/
def EVal.form : EVal → Form
  | .direct _ => Form.direct
  | .address _ _ => Form.address
  | .voidv => Form.voidv

/-- `Expr::GetValue` / `LValue::GetValue`: a set `valLoc` is returned
directly; an address-form L-value emits `GenLoad(addr, offset)` on every
call; a NULL `valLoc` is the null pointer. -/
def getValue : EVal → GenSt → GenSt × Location
  | .direct l, s => (s, l)
  | .address a off, s => genLoad a off s
  | .voidv, s => (s, nullLoc)

/-- `LValue::Assign`: `GenAssign` into a named Location, `GenStore`
through a computed address.  The `voidv` case models the
`Assert`-guarded caller-bug path (left operand not an L-value) and emits
nothing. -/
def evalAssign : EVal → Location → GenSt → GenSt
  | .direct d, src, s => genAssign d src s
  | .address a off, src, s => genStore a src off s
  | .voidv, _, s => s

/-- The relational operator tokens dispatched by
`RelationalExpr::Emit`. -/
inductive RelOp where
  | lt
  | gt
  | le
  | ge
deriving DecidableEq, Repr

/-- The equality operator tokens dispatched by `EqualityExpr::Emit`. -/
inductive EqOp where
  | eq
  | ne
deriving DecidableEq, Repr

/-- A resolved variable reference (`FieldAccess::var`): either the
variable's own `Location` (`var->GetValue()` non-null) or a class-field
byte offset (`var->GetOffset()`). -/
inductive VarRef where
  | direct (loc : Location)
  | field (offset : Int)
deriving DecidableEq, Repr

/-- A resolved call target (`Call::fn` together with its parent node):
a global function (parent is the `Program`), a class method (parent is a
`ClassDecl`, dispatched through the vtable at the method's offset), or
the array `length()` pseudo-function. -/
inductive CallTarget where
  | globalFn (label : String) (hasRet : Bool)
  | method (offset : Int) (hasRet : Bool)
  | arrayLength
deriving DecidableEq, Repr

/-- The out-of-bounds error literal passed to `PrintString` by
`ArrayAccess::Emit` (the exact text lives in `errors.h`, outside
src/). -/
def errArrOutOfBounds : String :=
  "Decaf runtime error: Array subscript out of bounds\n"

/-- The bad-size error literal passed to `PrintString` by
`NewArrayExpr::Emit`. -/
def errArrBadSize : String :=
  "Decaf runtime error: Array size is <= 0\n"

mutual

/-- An optional sub-expression (a nullable `Expr *` field). -/
inductive OptExpr where
  | none
  | some (e : Expr)

/-- The expression nodes of `ast_expr.h` that reach `Emit`, with their
checker-resolved data. -/
inductive Expr where
  | intConst (v : Int)
  | boolConst (b : Bool)
  | stringConst (str : String)
  | nullConst
  | thisE
  | arith (op : String) (l : OptExpr) (r : Expr)
  | rel (op : RelOp) (l r : Expr)
  | equality (op : EqOp) (isString : Bool) (l r : Expr)
  | logical (op : String) (l : OptExpr) (r : Expr)
  | assign (l r : Expr)
  | fieldAccess (var : VarRef) (base : OptExpr)
  | arrayAccess (base sub : Expr)
  | call (base : OptExpr) (target : CallTarget) (actuals : ExprList)
  | newObj (clsName : String) (clsSize : Int)
  | newArr (size : Expr)
  | readIntegerE
  | readLineE

/-- A `List<Expr *>` of actual arguments. -/
inductive ExprList where
  | nil
  | cons (e : Expr) (es : ExprList)

end

/-- The number of actual arguments. -/
def ExprList.length : ExprList → Nat
  | .nil => 0
  | .cons _ es => es.length + 1

/-- Push every parameter in list order
(`for (auto param : params.Get()) codeGen.GenPushParam(param)`). -/
def pushAll (params : List Location) (s : GenSt) : GenSt :=
  params.foldl (fun st p => genPushParam p st) s

/-- The `valLoc` resulting from a call: the result temporary, or NULL
for a void callee. -/
def retVal : Option Location → EVal
  | some l => EVal.direct l
  | none => EVal.voidv

mutual

/-- The `Emit` methods of `ast_expr.cc`, node by node, threading the
code-generator state; returns the node's yielded value.  Each case is a
statement-by-statement transcription of the corresponding C++ method. -/
def emitExpr : Expr → GenSt → GenSt × EVal
  | .intConst v, s =>
    let p := genLoadConstant v s
    (p.1, .direct p.2)
  | .boolConst b, s =>
    let p := genLoadConstant (if b then 1 else 0) s
    (p.1, .direct p.2)
  | .stringConst str, s =>
    let p := genLoadStringConstant str s
    (p.1, .direct p.2)
  | .nullConst, s =>
    let p := genLoadConstant 0 s
    (p.1, .direct p.2)
  | .thisE, s =>
    let p := genThis s
    (p.1, .direct p.2)
  | .arith op l r, s =>
    let pr := emitExpr r s
    let qr := getValue pr.2 pr.1
    match l with
    | .some le =>
      let pl := emitExpr le qr.1
      let ql := getValue pl.2 pl.1
      let b := genBinaryOp op ql.2 qr.2 ql.1
      (b.1, .direct b.2)
    | .none =>
      let z := genLoadConstant 0 qr.1
      let b := genBinaryOp op z.2 qr.2 z.1
      (b.1, .direct b.2)
  | .rel op l r, s =>
    let pl := emitExpr l s
    let pr := emitExpr r pl.1
    let ql := getValue pl.2 pr.1
    let qr := getValue pr.2 ql.1
    match op with
    | .lt =>
      let b := genBinaryOp "<" ql.2 qr.2 qr.1
      (b.1, .direct b.2)
    | .gt =>
      let b := genBinaryOp "<" qr.2 ql.2 qr.1
      (b.1, .direct b.2)
    | .le =>
      let b1 := genBinaryOp "<" ql.2 qr.2 qr.1
      let b2 := genBinaryOp "==" ql.2 qr.2 b1.1
      let b3 := genBinaryOp "||" b1.2 b2.2 b2.1
      (b3.1, .direct b3.2)
    | .ge =>
      let b1 := genBinaryOp "<" qr.2 ql.2 qr.1
      let b2 := genBinaryOp "==" ql.2 qr.2 b1.1
      let b3 := genBinaryOp "||" b1.2 b2.2 b2.1
      (b3.1, .direct b3.2)
  | .equality op isString l r, s =>
    let pl := emitExpr l s
    let pr := emitExpr r pl.1
    let ql := getValue pl.2 pr.1
    let qr := getValue pr.2 ql.1
    let pe : GenSt × Location :=
      if isString then
        let q := genBuiltInCall .StringEqual (some ql.2) (some qr.2) qr.1
        (q.1, q.2.getD nullLoc)
      else genBinaryOp "==" ql.2 qr.2 qr.1
    match op with
    | .eq => (pe.1, .direct pe.2)
    | .ne =>
      let z := genLoadConstant 0 pe.1
      let b := genBinaryOp "==" pe.2 z.2 z.1
      (b.1, .direct b.2)
  | .logical op l r, s =>
    let pr := emitExpr r s
    let qr := getValue pr.2 pr.1
    match l with
    | .some le =>
      let pl := emitExpr le qr.1
      let ql := getValue pl.2 pl.1
      let b := genBinaryOp op ql.2 qr.2 ql.1
      (b.1, .direct b.2)
    | .none =>
      let z := genLoadConstant 0 qr.1
      let b := genBinaryOp "==" z.2 qr.2 z.1
      (b.1, .direct b.2)
  | .assign l r, s =>
    let pl := emitExpr l s
    let pr := emitExpr r pl.1
    let qr := getValue pr.2 pr.1
    (evalAssign pl.2 qr.2 qr.1, pl.2)
  | .fieldAccess var base, s =>
    match var with
    | .direct loc => (s, .direct loc)
    | .field off =>
      match base with
      | .some b =>
        let pb := emitExpr b s
        let qb := getValue pb.2 pb.1
        (qb.1, .address qb.2 off)
      | .none =>
        let t := genThis s
        (t.1, .address t.2 off)
  | .arrayAccess b idx, s =>
    let pb := emitExpr b s
    let pidx := emitExpr idx pb.1
    let qb := getValue pb.2 pidx.1
    let qi := getValue pidx.2 qb.1
    let ln := genLoad qb.2 (-VarSize) qi.1
    let lh := newLabel ln.1
    let la := newLabel lh.1
    let ng := genLoadConstant (-1) la.1
    let lo := genBinaryOp "<" ng.2 qi.2 ng.1
    let up := genBinaryOp "<" qi.2 ln.2 lo.1
    let ts := genBinaryOp "&&" lo.2 up.2 up.1
    let s1 := genIfZ ts.2 lh.2 ts.1
    let vs := genLoadConstant VarSize s1
    let og := genBinaryOp "*" qi.2 vs.2 vs.1
    let ad := genBinaryOp "+" qb.2 og.2 og.1
    let s2 := genGoto la.2 ad.1
    let s3 := genLabel lh.2 s2
    let ms := genLoadStringConstant errArrOutOfBounds s3
    let c1 := genBuiltInCall .PrintString (some ms.2) none ms.1
    let c2 := genBuiltInCall .Halt none none c1.1
    let s4 := genLabel la.2 c2.1
    (s4, .address ad.2 0)
  | .call base target actuals, s =>
    match target with
    | .globalFn label hasRet =>
      let pa := emitActuals actuals s
      let params := pa.2.foldl (fun acc v => v :: acc) []
      let s1 := pushAll params pa.1
      let pc := genLCall label hasRet s1
      let s2 := genPopParams ((params.length : Int) * VarSize) pc.1
      (s2, retVal pc.2)
    | .method off hasRet =>
      let po := emitReceiver base s
      let vt := genLoad po.2 0 po.1
      let fa := genLoad vt.2 off vt.1
      let pa := emitActuals actuals fa.1
      let params := pa.2.foldl (fun acc v => v :: acc) [po.2]
      let s1 := pushAll params pa.1
      let pc := genACall fa.2 hasRet s1
      let s2 := genPopParams ((params.length : Int) * VarSize) pc.1
      (s2, retVal pc.2)
    | .arrayLength =>
      match base with
      | .some b =>
        let pb := emitExpr b s
        let qb := getValue pb.2 pb.1
        let ld := genLoad qb.2 (-VarSize) qb.1
        (ld.1, .direct ld.2)
      | .none => (s, .voidv)
  | .newObj clsName clsSize, s =>
    let sz := genLoadConstant clsSize s
    let al := genBuiltInCall .Alloc (some sz.2) none sz.1
    let obj := al.2.getD nullLoc
    let vt := genLoadLabel clsName al.1
    let s1 := genStore obj vt.2 0 vt.1
    (s1, .direct obj)
  | .newArr size, s =>
    let ps := emitExpr size s
    let ql := getValue ps.2 ps.1
    let one := genLoadConstant 1 ql.1
    let la := newLabel one.1
    let ts := genBinaryOp "<" ql.2 one.2 la.1
    let s1 := genIfZ ts.2 la.2 ts.1
    let ms := genLoadStringConstant errArrBadSize s1
    let c1 := genBuiltInCall .PrintString (some ms.2) none ms.1
    let c2 := genBuiltInCall .Halt none none c1.1
    let s2 := genLabel la.2 c2.1
    let vs := genLoadConstant VarSize s2
    let asz := genBinaryOp "*" vs.2 ql.2 vs.1
    let tsz := genBinaryOp "+" vs.2 asz.2 asz.1
    let ac := genBuiltInCall .Alloc (some tsz.2) none tsz.1
    let ad := ac.2.getD nullLoc
    let s3 := genStore ad ql.2 0 ac.1
    let fin := genBinaryOp "+" ad vs.2 s3
    (fin.1, .direct fin.2)
  | .readIntegerE, s =>
    let c := genBuiltInCall .ReadInteger none none s
    (c.1, retVal c.2)
  | .readLineE, s =>
    let c := genBuiltInCall .ReadLine none none s
    (c.1, retVal c.2)

/-- The receiver of a method call or implicit-this field access:
`base->Emit(); base->GetValue()` with an explicit base, `GenThis()`
without. -/
def emitReceiver : OptExpr → GenSt → GenSt × Location
  | .some b, s =>
    let pb := emitExpr b s
    getValue pb.2 pb.1
  | .none, s => genThis s

/-- The actual-argument loop of `Call::Emit`: evaluate each actual left
to right (`actual->Emit(); actual->GetValue()`), returning the value
Locations in source order. -/
def emitActuals : ExprList → GenSt → GenSt × List Location
  | .nil, s => (s, [])
  | .cons e es, s =>
    let pe := emitExpr e s
    let qv := getValue pe.2 pe.1
    let pr := emitActuals es qv.1
    (pr.1, qv.2 :: pr.2)

end

/-- The statically known shape of a node's yielded value: which
expressions are address-form L-values is determined by the node kind
(`ArrayAccess` always, `FieldAccess` exactly for class fields,
`AssignExpr` yields its left side's value). -/
def formOf : Expr → Form
  | .assign l _ => formOf l
  | .fieldAccess var _ =>
    match var with
    | .direct _ => Form.direct
    | .field _ => Form.address
  | .arrayAccess _ _ => Form.address
  | .call base target _ =>
    match target with
    | .globalFn _ hr => if hr then Form.direct else Form.voidv
    | .method _ hr => if hr then Form.direct else Form.voidv
    | .arrayLength =>
      match base with
      | .some _ => Form.direct
      | .none => Form.voidv
  | _ => Form.direct

/-- The number of frame slots a `GetValue` call consumes: one `GenLoad`
temporary for an address-form value, none otherwise. -/
def gvcF : Form → Nat
  | .address => 1
  | _ => 0

/-- Frame slots consumed by calling `GetValue` on this node's value. -/
def gvcE (e : Expr) : Nat := gvcF (formOf e)

mutual

/-- The number of `localCounter` allocations (temporaries) performed by
lowering the expression: a static mirror of the `GenTempVar` calls made
by `emitExpr`. -/
def cntE : Expr → Nat
  | .intConst _ => 1
  | .boolConst _ => 1
  | .stringConst _ => 1
  | .nullConst => 1
  | .thisE => 0
  | .arith _ l r =>
    match l with
    | .some le => cntE r + gvcE r + cntE le + gvcE le + 1
    | .none => cntE r + gvcE r + 2
  | .rel op l r =>
    cntE l + cntE r + gvcE l + gvcE r
      + (match op with
         | .lt => 1
         | .gt => 1
         | .le => 3
         | .ge => 3)
  | .equality op _ l r =>
    cntE l + cntE r + gvcE l + gvcE r + 1
      + (match op with
         | .eq => 0
         | .ne => 2)
  | .logical _ l r =>
    match l with
    | .some le => cntE r + gvcE r + cntE le + gvcE le + 1
    | .none => cntE r + gvcE r + 2
  | .assign l r => cntE l + cntE r + gvcE r
  | .fieldAccess var base =>
    match var with
    | .direct _ => 0
    | .field _ => cntO base
  | .arrayAccess b i => cntE b + cntE i + gvcE b + gvcE i + 9
  | .call base target actuals =>
    match target with
    | .globalFn _ hr => cntL actuals + (if hr then 1 else 0)
    | .method _ hr => cntO base + 2 + cntL actuals + (if hr then 1 else 0)
    | .arrayLength =>
      match base with
      | .some b => cntE b + gvcE b + 1
      | .none => 0
  | .newObj _ _ => 3
  | .newArr sz => cntE sz + gvcE sz + 8
  | .readIntegerE => 1
  | .readLineE => 1

/-- Allocations performed by lowering an optional receiver. -/
def cntO : OptExpr → Nat
  | .none => 0
  | .some e => cntE e + gvcE e

/-- Allocations performed by the actual-argument loop. -/
def cntL : ExprList → Nat
  | .nil => 0
  | .cons e es => cntE e + gvcE e + cntL es

end

/-- The instruction stream only grows (`code` is append-only). -/
def CodeExt (s s' : GenSt) : Prop := s.code <+: s'.code

/-- The state and values produced by the pre-call phase of the method
path of `Call::Emit`: receiver, vtable load, method-address load, then
the actuals evaluated left to right. -/
structure MethodCallPre where
  st : GenSt
  obj : Location
  fnAddr : Location
  vals : List Location

/-- The pre-call phase of the method path of `Call::Emit`: emit the
receiver (`GenThis()` when there is no explicit base), load the vtable
from offset 0 of the object, load the method address at the method's
vtable offset, then evaluate the actuals left to right. -/
def methodCallPre (base : OptExpr) (off : Int) (actuals : ExprList)
    (s : GenSt) : MethodCallPre :=
  let po := emitReceiver base s
  let vt := genLoad po.2 0 po.1
  let fa := genLoad vt.2 off vt.1
  let pa := emitActuals actuals fa.1
  ⟨pa.1, po.2, fa.2, pa.2⟩

/-- The single instruction `LValue::Assign` appends: an `Assign` for a
named Location, a `Store` for a computed address, nothing on the
asserted-unreachable path. -/
def assignCode : EVal → Location → List Instr
  | .direct d, src => [Instr.Assign d src]
  | .address a off, src => [Instr.Store a src off]
  | .voidv, _ => []

/-- Modelled from the spec: an assignment lowerer following the spec's
words "Lower RHS first, then LHS; emit Assign ... or Store(...)", for
comparison against `AssignExpr::Emit`. -/
def emitAssignSpecC6 (l r : Expr) (s : GenSt) : GenSt :=
  let pr := emitExpr r s
  let pl := emitExpr l pr.1
  let qr := getValue pr.2 pl.1
  evalAssign pl.2 qr.2 qr.1

/-- The concrete left-hand side `x[0]` (array held in local `x`) used to
test assignment lowering order. -/
def c6ExampleLhs : Expr :=
  Expr.arrayAccess
    (Expr.fieldAccess (VarRef.direct ⟨100, "x", Segment.fpRelative, -8⟩)
      OptExpr.none)
    (Expr.intConst 0)

/-- The concrete right-hand side `7`. -/
def c6ExampleRhs : Expr := Expr.intConst 7

/-! The statement layer: the `Emit` methods of `ast_stmt.cc` and
`FnDecl::Emit` of `ast_decl.cc`. -/

/-- The checked type of a `Print` argument, selecting the built-in
(`PrintStmt::Emit` branches on the argument's type). -/
inductive PKind where
  | str
  | int
  | bool
deriving DecidableEq, Repr

/-- The built-in used to print a value of the given type. -/
def printBuiltin : PKind → BuiltIn
  | .str => BuiltIn.PrintString
  | .int => BuiltIn.PrintInt
  | .bool => BuiltIn.PrintBool

mutual

/-- The statement nodes of `ast_stmt.h` that reach `Emit` (an `Expr` is
itself a `Stmt`; `StmtBlock` carries its local `VarDecl` names, whose
`Emit` calls `GenLocalVar`). -/
inductive Stmt where
  | expr (e : Expr)
  | block (decls : List String) (stmts : StmtList)
  | ifS (test : Expr) (thenB : Stmt)
  | ifElseS (test : Expr) (thenB elseB : Stmt)
  | whileS (test : Expr) (body : Stmt)
  | forS (init test step : Expr) (body : Stmt)
  | breakS
  | returnS (e : Expr)
  | printS (args : List (Expr × PKind))

/-- A `List<Stmt *>`. -/
inductive StmtList where
  | nil
  | cons (s : Stmt) (ss : StmtList)

end

/-- `PrintStmt::Emit`: for each argument, emit it, read its value, and
call the matching print built-in. -/
def emitPrintArgs (args : List (Expr × PKind)) (s : GenSt) : GenSt :=
  args.foldl
    (fun st p =>
      let pe := emitExpr p.1 st
      let qv := getValue pe.2 pe.1
      (genBuiltInCall (printBuiltin p.2) (some qv.2) none qv.1).1)
    s

mutual

/-- The `Emit` methods of `ast_stmt.cc`, statement by statement.  The
second argument is the `labelAfter` of the innermost enclosing loop
(`BreakStmt::Emit` jumps there; the `none` case is the
`Assert`-guarded break-outside-loop caller bug and emits nothing). -/
def emitStmt : Stmt → Option String → GenSt → GenSt
  | .expr e, _, s => (emitExpr e s).1
  | .block decls stmts, brk, s =>
    let s1 := decls.foldl (fun st n => (genLocalVar n st).1) s
    emitStmtList stmts brk s1
  | .ifS t th, brk, s =>
    let pt := emitExpr t s
    let qv := getValue pt.2 pt.1
    let la := newLabel qv.1
    let s1 := genIfZ qv.2 la.2 la.1
    let s2 := emitStmt th brk s1
    genLabel la.2 s2
  | .ifElseS t th el, brk, s =>
    let pt := emitExpr t s
    let qv := getValue pt.2 pt.1
    let la := newLabel qv.1
    let le := newLabel la.1
    let s1 := genIfZ qv.2 le.2 le.1
    let s2 := emitStmt th brk s1
    let s3 := genGoto la.2 s2
    let s4 := genLabel le.2 s3
    let s5 := emitStmt el brk s4
    genLabel la.2 s5
  | .whileS t body, _, s =>
    let lb := newLabel s
    let la := newLabel lb.1
    let s1 := genLabel lb.2 la.1
    let pt := emitExpr t s1
    let qv := getValue pt.2 pt.1
    let s2 := genIfZ qv.2 la.2 qv.1
    let s3 := emitStmt body (some la.2) s2
    let s4 := genGoto lb.2 s3
    genLabel la.2 s4
  | .forS init t step body, _, s =>
    let lb := newLabel s
    let la := newLabel lb.1
    let si := emitExpr init la.1
    let s1 := genLabel lb.2 si.1
    let pt := emitExpr t s1
    let qv := getValue pt.2 pt.1
    let s2 := genIfZ qv.2 la.2 qv.1
    let s3 := emitStmt body (some la.2) s2
    let ss := emitExpr step s3
    let s4 := genGoto lb.2 ss.1
    genLabel la.2 s4
  | .breakS, brk, s =>
    match brk with
    | some l => genGoto l s
    | none => s
  | .returnS e, _, s =>
    let pe := emitExpr e s
    let qv := getValue pe.2 pe.1
    genReturn qv.2 qv.1
  | .printS args, _, s => emitPrintArgs args s

/-- `StmtBlock::Emit`'s statement loop. -/
def emitStmtList : StmtList → Option String → GenSt → GenSt
  | .nil, _, s => s
  | .cons st ss, brk, s => emitStmtList ss brk (emitStmt st brk s)

end

/-- Allocations performed by one `Print` argument list. -/
def cntPrintArgs (args : List (Expr × PKind)) : Nat :=
  (args.map fun p => cntE p.1 + gvcE p.1).sum

mutual

/-- The number of `localCounter` allocations (named locals plus
temporaries) performed by lowering the statement. -/
def cntS : Stmt → Nat
  | .expr e => cntE e
  | .block decls stmts => decls.length + cntSL stmts
  | .ifS t th => cntE t + gvcE t + cntS th
  | .ifElseS t th el => cntE t + gvcE t + cntS th + cntS el
  | .whileS t body => cntE t + gvcE t + cntS body
  | .forS init t step body =>
    cntE init + cntE t + gvcE t + cntS body + cntE step
  | .breakS => 0
  | .returnS e => cntE e + gvcE e
  | .printS args => cntPrintArgs args

/-- Allocations performed by a statement list. -/
def cntSL : StmtList → Nat
  | .nil => 0
  | .cons st ss => cntS st + cntSL ss

end

/-- The resolved data of one `FnDecl` reaching `Emit`: mangled label,
whether it is a class method (which gets a `this` parameter slot),
formal parameter names, and the body. -/
structure FnData where
  label : String
  isMethod : Bool
  formals : List String
  body : Stmt

/-- `FnDecl::Emit`: label, `GenBeginFunc` placeholder, `this` slot for
methods, parameter slots left to right, the body, then
`SetFrameSize(GetFrameSize())` backpatched into the `BeginFunc` (the
instruction object is mutated in place, modelled by `List.set`), and
finally `GenEndFunc` (which resets the per-function counters). -/
def emitFn (f : FnData) (s : GenSt) : GenSt :=
  let s1 := genLabel f.label s
  let s2 := emit1 (Instr.BeginFunc 0) s1
  let s3 := if f.isMethod then (genParamVar "this" s2).1 else s2
  let s4 := f.formals.foldl (fun st n => (genParamVar n st).1) s3
  let s5 := emitStmt f.body none s4
  let s6 := { s5 with
    code := s5.code.set s1.code.length (Instr.BeginFunc (getFrameSize s5)) }
  genEndFunc s6

/-- One allocation request against the shared per-function counter:
a compiler temporary (`GenTempVar`) or a named local (`GenLocalVar`). -/
inductive LocalAlloc where
  | temp
  | localV (name : String)

/-- Run a sequence of allocation requests, collecting the created
Locations in order. -/
def applyAllocs : List LocalAlloc → GenSt → GenSt × List Location
  | [], s => (s, [])
  | op :: ops, s =>
    let p := match op with
      | LocalAlloc.temp => genTempVar s
      | LocalAlloc.localV n => genLocalVar n s
    let q := applyAllocs ops p.1
    (q.1, p.2 :: q.2)

/-- A concrete function window used to exercise the CFG builder:
`BeginFunc; _tmp0 = 0; IfZ _tmp0 goto _L0; Return _tmp0; _L0:;
Goto _L1; _L1:; EndFunc`. -/
def cfgExampleCode : List Instr :=
  [Instr.BeginFunc 8,
   Instr.LoadConstant ⟨1, "_tmp0", Segment.fpRelative, -8⟩ 0,
   Instr.IfZ ⟨1, "_tmp0", Segment.fpRelative, -8⟩ "_L0",
   Instr.Return ⟨1, "_tmp0", Segment.fpRelative, -8⟩,
   Instr.Label "_L0",
   Instr.Goto "_L1",
   Instr.Label "_L1",
   Instr.EndFunc]

end Decaf

namespace Decaf

/-! Basic state lemmas about the code-generator primitives. -/

@[simp] theorem emit1_code (i : Instr) (s : GenSt) :
    (emit1 i s).code = s.code ++ [i] := rfl

@[simp] theorem emit1_localCnt (i : Instr) (s : GenSt) :
    (emit1 i s).localCnt = s.localCnt := rfl

@[simp] theorem genTempVar_localCnt (s : GenSt) :
    (genTempVar s).1.localCnt = s.localCnt + 1 := rfl

@[simp] theorem genTempVar_offset (s : GenSt) :
    (genTempVar s).2.offset = OffsetToFirstLocal - VarSize * s.localCnt := rfl

@[simp] theorem genLocalVar_localCnt (name : String) (s : GenSt) :
    (genLocalVar name s).1.localCnt = s.localCnt + 1 := rfl

@[simp] theorem genLocalVar_offset (name : String) (s : GenSt) :
    (genLocalVar name s).2.offset
      = OffsetToFirstLocal - VarSize * s.localCnt := rfl

@[simp] theorem genThis_localCnt (s : GenSt) :
    (genThis s).1.localCnt = s.localCnt := rfl

@[simp] theorem genThis_code (s : GenSt) :
    (genThis s).1.code = s.code := rfl

@[simp] theorem genThis_segment (s : GenSt) :
    (genThis s).2.segment = Segment.fpRelative := rfl

@[simp] theorem genThis_offset (s : GenSt) :
    (genThis s).2.offset = OffsetToFirstParam := rfl

@[simp] theorem genThis_name (s : GenSt) :
    (genThis s).2.name = "this" := rfl

@[simp] theorem genThis_id (s : GenSt) :
    (genThis s).2.id = s.nextPtr := rfl

@[simp] theorem genThis_nextPtr (s : GenSt) :
    (genThis s).1.nextPtr = s.nextPtr + 1 := rfl

/-- C1, code evaluated at the failing input: for a `Return` carrying the
value Location `_tmp0`, the source (`Return::Kill`/`Gen` in `tac.h`)
computes `Kill = {_tmp0}` and `Gen = ∅`, which contradicts the claimed
`Kill = ∅` and `Gen = {_tmp0}`. -/
theorem c1_return_kill_gen_code_bug :
    Kill (Instr.Return ⟨1, "_tmp0", Segment.fpRelative, -8⟩)
        = ({(1 : Nat)} : LocationSet)
      ∧ Gen (Instr.Return ⟨1, "_tmp0", Segment.fpRelative, -8⟩)
        = ({} : LocationSet)
      ∧ ¬ (Kill (Instr.Return ⟨1, "_tmp0", Segment.fpRelative, -8⟩)
            = ({} : LocationSet)
          ∧ Gen (Instr.Return ⟨1, "_tmp0", Segment.fpRelative, -8⟩)
            = ({(1 : Nat)} : LocationSet)) := by
  refine ⟨rfl, rfl, ?_⟩
  intro h
  exact absurd h.1 (by decide)

/-- C2, code evaluated at the failing input: for `Store(base, src, 0)`
with distinct `base`/`src` Locations, the source computes
`Kill = {base}` and `Gen = {src}`, contradicting the claimed `Kill = ∅`
and `Gen = {base, src}`. -/
theorem c2_store_kill_gen_code_bug :
    Kill (Instr.Store ⟨1, "b", Segment.fpRelative, -8⟩
            ⟨2, "s", Segment.fpRelative, -12⟩ 0)
        = ({(1 : Nat)} : LocationSet)
      ∧ Gen (Instr.Store ⟨1, "b", Segment.fpRelative, -8⟩
            ⟨2, "s", Segment.fpRelative, -12⟩ 0)
        = ({(2 : Nat)} : LocationSet)
      ∧ ¬ (Kill (Instr.Store ⟨1, "b", Segment.fpRelative, -8⟩
            ⟨2, "s", Segment.fpRelative, -12⟩ 0)
            = ({} : LocationSet)
          ∧ Gen (Instr.Store ⟨1, "b", Segment.fpRelative, -8⟩
            ⟨2, "s", Segment.fpRelative, -12⟩ 0)
            = ({(1 : Nat), (2 : Nat)} : LocationSet)) := by
  refine ⟨rfl, rfl, ?_⟩
  intro h
  exact absurd h.1 (by decide)

/-- C8 counterexample: two consecutive `GenThis` calls from the initial
state return Locations with identical `(segment, offset)` — both
`(fpRelative, OffsetToFirstParam)` — yet they are distinct elements of a
`LocationSet` (pointer identity is the key), so they do not count as the
same element, contrary to the claim. -/
theorem c8_location_key_counterexample :
    (genThis st0).2.segment = (genThis (genThis st0).1).2.segment
      ∧ (genThis st0).2.offset = (genThis (genThis st0).1).2.offset
      ∧ (genThis st0).2.key ≠ (genThis (genThis st0).1).2.key
      ∧ ¬ (({(genThis st0).2.key, (genThis (genThis st0).1).2.key} :
            Finset Nat).card = 1) := by
  refine ⟨rfl, rfl, by decide, by decide⟩

/-- C8 amended: the dataflow key of a `Location` is its allocation
identity (the pointer), so two Locations are the same set element iff
they are the same allocation; in particular from any state, two separate
`GenThis` calls yield Locations with equal segment and offset that
nevertheless form a two-element `LocationSet`. -/
theorem c8_location_key_pointer_identity (s : GenSt) :
    ((genThis s).2.segment = (genThis (genThis s).1).2.segment
      ∧ (genThis s).2.offset = (genThis (genThis s).1).2.offset)
      ∧ (genThis s).2.key ≠ (genThis (genThis s).1).2.key
      ∧ ({(genThis s).2.key, (genThis (genThis s).1).2.key} :
            Finset Nat).card = 2
      ∧ ∀ a b : Location, a.key = b.key ↔ a.id = b.id := by
  refine ⟨⟨rfl, rfl⟩, ?_, ?_, fun a b => Iff.rfl⟩
  · simp [Location.key, genThis]
  · rw [Finset.card_insert_of_not_mem (by simp [Location.key, genThis])]
    rfl

/-- If no slot matches `fn`, `collectOne` appends a fresh slot at index
`len(vtable)` with offset `len(vtable) * VarSize`. -/
theorem collectOne_of_no_match (ms : List VEntry) (fn : Fn)
    (h : ∀ m ∈ ms, isMatched fn m.fn = false) :
    collectOne ms fn = ms ++ [⟨fn, (ms.length : Int) * VarSize⟩] := by
  have hf : ms.filter (fun m => isMatched fn m.fn) = [] := by
    rw [List.filter_eq_nil_iff]
    intro a ha
    simp [h a ha]
  unfold collectOne matchedOffsets
  rw [hf]
  rfl

/-- Matching methods carry the same name. -/
theorem isMatched_name (fn g : Fn) (h : isMatched fn g = true) :
    fn.name = g.name := by
  unfold isMatched at h
  simp only [Bool.and_eq_true, decide_eq_true_eq] at h
  exact h.1.1.1

/-- `matchedOffsets` unfolded over a cons cell. -/
theorem matchedOffsets_cons (m : VEntry) (t : List VEntry) (fn : Fn) :
    matchedOffsets (m :: t) fn
      = if isMatched fn m.fn then m.offset :: matchedOffsets t fn
        else matchedOffsets t fn := by
  unfold matchedOffsets
  rw [List.filter_cons]
  by_cases h : isMatched fn m.fn <;> simp [h]

/-- `nameCount` unfolded over a cons cell. -/
theorem nameCount_cons (m : VEntry) (t : List VEntry) (n : String) :
    nameCount (m :: t) n
      = (if entryName m = n then 1 else 0) + nameCount t n := by
  unfold nameCount
  rw [List.filter_cons]
  by_cases h : entryName m = n <;> simp [h, Nat.add_comm]

/-- A slot holding a method named `n` makes `nameCount` positive. -/
theorem nameCount_pos (ms : List VEntry) (n : String) (e : VEntry)
    (he : e ∈ ms) (hn : entryName e = n) : 1 ≤ nameCount ms n := by
  unfold nameCount
  have : e ∈ ms.filter fun m => entryName m = n := by
    rw [List.mem_filter]
    exact ⟨he, by simp [hn]⟩
  calc 1 ≤ 1 := le_refl 1
  _ ≤ (ms.filter fun m => entryName m = n).length :=
      List.length_pos.mpr (List.ne_nil_of_mem this)

/-- `nameCount` vanishes when no slot has the name. -/
theorem nameCount_eq_zero (ms : List VEntry) (n : String)
    (h : ∀ e ∈ ms, entryName e ≠ n) : nameCount ms n = 0 := by
  unfold nameCount
  rw [List.length_eq_zero, List.filter_eq_nil_iff]
  intro a ha
  simp [h a ha]

/-- A table of pairwise distinct method names has `nameCount ≤ 1`
everywhere. -/
theorem nodup_nameCount (ms : List VEntry)
    (h : (ms.map entryName).Nodup) (n : String) : nameCount ms n ≤ 1 := by
  induction ms with
  | nil => simp [nameCount]
  | cons m t ih =>
    rw [List.map_cons, List.nodup_cons] at h
    rw [nameCount_cons]
    by_cases hm : entryName m = n
    · have h0 : nameCount t n = 0 := by
        apply nameCount_eq_zero
        intro e he hen
        exact h.1 (by
          rw [List.mem_map]
          exact ⟨e, he, by rw [hen, hm]⟩)
      simp [hm, h0]
    · simpa [hm] using ih h.2

/-- In a table where `fn`'s name occupies at most one slot, a matching
slot at index `i` is the only match, and its offset is what the
last-wins `SetOffset` loop leaves behind. -/
theorem unique_match_spec (ms : List VEntry) (fn : Fn) :
    ∀ (i : Nat) (e : VEntry), nameCount ms fn.name ≤ 1 →
      ms.get? i = some e → isMatched fn e.fn = true →
      (matchedOffsets ms fn).getLast? = some e.offset
        ∧ ∀ j e', j ≠ i → ms.get? j = some e' →
            isMatched fn e'.fn = false := by
  induction ms with
  | nil => intro i e _ hi; simp at hi
  | cons m t ih =>
    intro i e hc hi hm
    match i with
    | 0 =>
      rw [List.get?_cons_zero, Option.some_inj] at hi
      subst hi
      have hname : entryName m = fn.name := (isMatched_name fn m.fn hm).symm
      have ht0 : nameCount t fn.name = 0 := by
        rw [nameCount_cons, hname] at hc
        simpa using hc
      have htnm : ∀ e' ∈ t, isMatched fn e'.fn = false := by
        intro e' he'
        by_contra hne
        rw [Bool.not_eq_false] at hne
        have := nameCount_pos t fn.name e' he'
          (isMatched_name fn e'.fn hne).symm
        omega
      constructor
      · rw [matchedOffsets_cons, if_pos hm]
        have hf : t.filter (fun m => isMatched fn m.fn) = [] :=
          List.filter_eq_nil_iff.mpr (fun a ha => by simp [htnm a ha])
        have : matchedOffsets t fn = [] := by
          unfold matchedOffsets
          rw [hf]
          rfl
        rw [this]
        rfl
      · intro j e' hj hje
        match j with
        | 0 => exact absurd rfl hj
        | Nat.succ j' =>
          rw [List.get?_cons_succ] at hje
          exact htnm e' (List.get?_mem hje)
    | Nat.succ i' =>
      rw [List.get?_cons_succ] at hi
      have hmm : isMatched fn m.fn = false := by
        by_contra hmt
        rw [Bool.not_eq_false] at hmt
        have h1 : entryName m = fn.name := (isMatched_name fn m.fn hmt).symm
        have h2 : 1 ≤ nameCount t fn.name :=
          nameCount_pos t fn.name e (List.get?_mem hi)
            (isMatched_name fn e.fn hm).symm
        rw [nameCount_cons, h1] at hc
        simp at hc
        omega
      have hct : nameCount t fn.name ≤ 1 := by
        rw [nameCount_cons] at hc
        by_cases hmn : entryName m = fn.name <;> simp [hmn] at hc <;> omega
      obtain ⟨hL, hU⟩ := ih i' e hct hi hm
      constructor
      · rw [matchedOffsets_cons, if_neg (by simp [hmm])]
        exact hL
      · intro j e' hj hje
        match j with
        | 0 =>
          rw [List.get?_cons_zero, Option.some_inj] at hje
          subst hje
          exact hmm
        | Nat.succ j' =>
          rw [List.get?_cons_succ] at hje
          exact hU j' e' (by omega) hje

/-- In the replace branch, `collectOne` acts slot-wise. -/
theorem collectOne_get?_replace (ms : List VEntry) (fn : Fn) (off : Int)
    (h : (matchedOffsets ms fn).getLast? = some off) (j : Nat) :
    (collectOne ms fn).get? j
      = (ms.get? j).map
          fun m => if isMatched fn m.fn then (⟨fn, off⟩ : VEntry) else m := by
  unfold collectOne
  rw [h]
  exact List.get?_map _ _ _

/-- A step whose member name differs from the slot's method name leaves
the slot untouched. -/
theorem collectOne_get?_of_name_ne (ms : List VEntry) (fn : Fn) (i : Nat)
    (e : VEntry) (hne : fn.name ≠ entryName e) (hi : ms.get? i = some e) :
    (collectOne ms fn).get? i = some e := by
  cases hcase : (matchedOffsets ms fn).getLast? with
  | none =>
    have := collectOne_of_no_match ms fn (by
      intro m hm
      by_contra hmt
      rw [Bool.not_eq_false] at hmt
      have : matchedOffsets ms fn ≠ [] := by
        unfold matchedOffsets
        intro hnil
        rw [List.map_eq_nil, List.filter_eq_nil_iff] at hnil
        exact absurd hmt (by simpa using hnil m hm)
      rw [List.getLast?_eq_none] at hcase
      exact this hcase)
    rw [this]
    have hlt : i < ms.length := (List.get?_eq_some.mp hi).1
    rw [List.get?_append hlt]
    exact hi
  | some off =>
    rw [collectOne_get?_replace ms fn off hcase, hi]
    have : isMatched fn e.fn = false := by
      by_contra hmt
      rw [Bool.not_eq_false] at hmt
      exact hne (isMatched_name fn e.fn hmt)
    simp [this]

/-- Folding members none of whose names equal the slot's method name
leaves the slot untouched. -/
theorem foldl_collectOne_untouched (gs : List Fn) :
    ∀ (ms : List VEntry) (i : Nat) (e : VEntry),
      (∀ g ∈ gs, g.name ≠ entryName e) → ms.get? i = some e →
      (gs.foldl collectOne ms).get? i = some e := by
  induction gs with
  | nil => intro ms i e _ hi; exact hi
  | cons g gs' ih =>
    intro ms i e hg hi
    rw [List.foldl_cons]
    exact ih (collectOne ms g) i e (fun x hx => hg x (List.mem_cons_of_mem g hx))
      (collectOne_get?_of_name_ne ms g i e (hg g (List.mem_cons_self g gs')) hi)

/-- A slot-name-preserving map keeps every `nameCount`. -/
theorem nameCount_map_preserving (f : VEntry → VEntry)
    (hf : ∀ m, entryName (f m) = entryName m) :
    ∀ (ms : List VEntry) (n : String),
      nameCount (ms.map f) n = nameCount ms n := by
  intro ms n
  induction ms with
  | nil => rfl
  | cons m t ih =>
    rw [List.map_cons, nameCount_cons, nameCount_cons, hf m, ih]

/-- `collectOne` never changes the count of a name other than the
processed member's. -/
theorem nameCount_collectOne_ne (ms : List VEntry) (fn : Fn) (n : String)
    (hne : n ≠ fn.name) : nameCount (collectOne ms fn) n = nameCount ms n := by
  unfold collectOne
  cases hcase : (matchedOffsets ms fn).getLast? with
  | none =>
    show nameCount (appendFresh ms fn) n = nameCount ms n
    unfold appendFresh nameCount
    rw [List.filter_append, List.length_append]
    have hsingle : (([⟨fn, (ms.length : Int) * VarSize⟩] : List VEntry).filter
        fun m => entryName m = n) = [] := by
      rw [List.filter_eq_nil_iff]
      intro a ha
      rw [List.mem_singleton] at ha
      subst ha
      simp only [entryName, decide_eq_true_eq]
      exact fun h => hne h.symm
    rw [hsingle]
    rfl
  | some off =>
    apply nameCount_map_preserving
    intro m
    by_cases hm : isMatched fn m.fn
    · have hname := isMatched_name fn m.fn (by simpa using hm)
      simp only [if_pos hm]
      show Fn.name fn = entryName m
      unfold entryName
      exact hname
    · simp [hm]

/-- Appending a fresh slot preserves density. -/
theorem dense_appendFresh (ms : List VEntry) (fn : Fn) (hd : Dense ms) :
    Dense (appendFresh ms fn) := by
  intro k e hk
  unfold appendFresh at hk
  rcases Nat.lt_trichotomy k ms.length with hlt | heq | hgt
  · rw [List.get?_append hlt] at hk
    exact hd k e hk
  · subst heq
    rw [List.get?_append_right (le_refl _), Nat.sub_self,
      List.get?_cons_zero, Option.some_inj] at hk
    rw [← hk]
  · rw [List.get?_append_right (by omega)] at hk
    have : k - ms.length ≠ 0 := by omega
    match hxy : k - ms.length, this with
    | Nat.succ y, _ =>
      rw [hxy] at hk
      simp at hk

/-- Folding members through the no-base append loop preserves density. -/
theorem foldl_appendFresh_dense (gs : List Fn) :
    ∀ ms : List VEntry, Dense ms → Dense (gs.foldl appendFresh ms) := by
  induction gs with
  | nil => intro ms hd; exact hd
  | cons g gs' ih =>
    intro ms hd
    rw [List.foldl_cons]
    exact ih (appendFresh ms g) (dense_appendFresh ms g hd)

/-- Master property of the with-base member fold: under distinct member
names and at-most-one table slot per member name, density is preserved
and every member matching an original slot ends up at exactly that slot
with its original offset. -/
theorem collectFold_props (gs : List Fn) :
    ∀ ms : List VEntry, Dense ms → (gs.map Fn.name).Nodup →
      (∀ fn ∈ gs, nameCount ms fn.name ≤ 1) →
      Dense (gs.foldl collectOne ms)
        ∧ ∀ i e fn, ms.get? i = some e → fn ∈ gs →
            isMatched fn e.fn = true →
            (gs.foldl collectOne ms).get? i
              = some (⟨fn, e.offset⟩ : VEntry) := by
  induction gs with
  | nil =>
    intro ms hd _ _
    exact ⟨hd, fun i e fn _ hfn _ => absurd hfn (List.not_mem_nil fn)⟩
  | cons g gs' ih =>
    intro ms hd hnd hc
    rw [List.map_cons, List.nodup_cons] at hnd
    have hcg : nameCount ms g.name ≤ 1 := hc g (List.mem_cons_self g gs')
    have hrestname : ∀ fn ∈ gs', fn.name ≠ g.name := by
      intro fn hfn heq
      exact hnd.1 (by rw [List.mem_map]; exact ⟨fn, hfn, heq⟩)
    have hcnext : ∀ fn ∈ gs', nameCount (collectOne ms g) fn.name ≤ 1 := by
      intro fn hfn
      rw [nameCount_collectOne_ne ms g fn.name (hrestname fn hfn)]
      exact hc fn (List.mem_cons_of_mem g hfn)
    have hdnext : Dense (collectOne ms g) := by
      cases hcase : (matchedOffsets ms g).getLast? with
      | none =>
        have hnm : ∀ m ∈ ms, isMatched g m.fn = false := by
          intro m hm
          by_contra hmt
          rw [Bool.not_eq_false] at hmt
          have : matchedOffsets ms g ≠ [] := by
            unfold matchedOffsets
            intro hnil
            rw [List.map_eq_nil, List.filter_eq_nil_iff] at hnil
            exact absurd hmt (by simpa using hnil m hm)
          rw [List.getLast?_eq_none] at hcase
          exact this hcase
        rw [collectOne_of_no_match ms g hnm]
        exact dense_appendFresh ms g hd
      | some off =>
        have hne : matchedOffsets ms g ≠ [] := by
          intro hnil
          rw [hnil] at hcase
          simp at hcase
        have hfne : ms.filter (fun m => isMatched g m.fn) ≠ [] := by
          intro h
          apply hne
          unfold matchedOffsets
          rw [h]
          rfl
        rcases List.exists_mem_of_ne_nil _ hfne with ⟨x, hx⟩
        rw [List.mem_filter] at hx
        rcases List.mem_iff_get?.mp hx.1 with ⟨i0, hi0⟩
        have hxm : isMatched g x.fn = true := by simpa using hx.2
        obtain ⟨hL, hU⟩ := unique_match_spec ms g i0 x hcg hi0 hxm
        have hoff : off = x.offset := by
          rw [hL, Option.some_inj] at hcase
          exact hcase.symm
        intro k e' hk
        rw [collectOne_get?_replace ms g off hcase] at hk
        rcases Option.map_eq_some'.mp hk with ⟨e0, he0, hrepl⟩
        by_cases hm : isMatched g e0.fn = true
        · have hki : k = i0 := by
            by_contra hne2
            rw [hU k e0 hne2 he0] at hm
            exact Bool.false_ne_true hm
          subst hki
          rw [hi0, Option.some_inj] at he0
          subst he0
          rw [if_pos hm] at hrepl
          rw [← hrepl, hoff]
          exact hd k x hi0
        · rw [if_neg hm] at hrepl
          subst hrepl
          exact hd k e0 he0
    have hih := ih (collectOne ms g) hdnext hnd.2 hcnext
    refine ⟨hih.1, ?_⟩
    intro i e fn hi hfn hm
    rw [List.foldl_cons]
    rcases List.mem_cons.mp hfn with hfg | hfr
    · subst hfg
      obtain ⟨hL, _⟩ := unique_match_spec ms fn i e hcg hi hm
      have hstep : (collectOne ms fn).get? i = some (⟨fn, e.offset⟩ : VEntry) := by
        rw [collectOne_get?_replace ms fn e.offset hL, hi]
        simp [hm]
      exact foldl_collectOne_untouched gs' (collectOne ms fn) i
        ⟨fn, e.offset⟩ (fun x hx => hrestname x hx) hstep
    · have hname : fn.name = entryName e := isMatched_name fn e.fn hm
      have hgne : g.name ≠ entryName e := by
        rw [← hname]
        intro heq
        exact hrestname fn hfr heq.symm
      have hstep := collectOne_get?_of_name_ne ms g i e hgne hi
      exact (hih.2) i e fn hstep hfr hm

/-- C5 counterexample: base class with method `f(int): int` at slot 0;
the subclass declares `f(): bool` — same name, different signature.  The
planner appends a second slot instead of replacing slot 0: the result has
two slots, keeping the inherited entry, so the claimed last-wins
replacement at the same slot is false. -/
theorem c5_collision_appends_counterexample :
    collectFn (some [⟨⟨"f", Ty.prim PrimT.int, [Ty.prim PrimT.int]⟩, 0⟩])
        [⟨"f", Ty.prim PrimT.bool, []⟩]
      = [⟨⟨"f", Ty.prim PrimT.int, [Ty.prim PrimT.int]⟩, 0⟩,
         ⟨⟨"f", Ty.prim PrimT.bool, []⟩, 4⟩]
      ∧ (⟨"f", Ty.prim PrimT.bool, []⟩ : Fn).name
          = (⟨"f", Ty.prim PrimT.int, [Ty.prim PrimT.int]⟩ : Fn).name
      ∧ isMatched ⟨"f", Ty.prim PrimT.bool, []⟩
          ⟨"f", Ty.prim PrimT.int, [Ty.prim PrimT.int]⟩ = false
      ∧ (collectFn
          (some [⟨⟨"f", Ty.prim PrimT.int, [Ty.prim PrimT.int]⟩, 0⟩])
          [⟨"f", Ty.prim PrimT.bool, []⟩]).length ≠ 1 := by
  refine ⟨by decide, rfl, by decide, by decide⟩

/-- C5 amended: when a member's name collides with an inherited method
but the signature differs, `IsMatched` is false, so the planner does not
replace: whenever no inherited slot matches, the member is appended as a
fresh slot at index `len(vtable)` with offset `len(vtable) * VarSize`,
and the inherited entries are kept unchanged. -/
theorem c5_no_match_appends (ms : List VEntry) (fn : Fn)
    (h : ∀ m ∈ ms, isMatched fn m.fn = false) :
    collectOne ms fn = ms ++ [⟨fn, (ms.length : Int) * VarSize⟩] :=
  collectOne_of_no_match ms fn h

/-- C5 amended, witness: the counterexample hierarchy evaluated through
the amended statement. -/
theorem c5_no_match_appends_witness :
    collectOne [⟨⟨"f", Ty.prim PrimT.int, [Ty.prim PrimT.int]⟩, 0⟩]
        ⟨"f", Ty.prim PrimT.bool, []⟩
      = [⟨⟨"f", Ty.prim PrimT.int, [Ty.prim PrimT.int]⟩, 0⟩,
         ⟨⟨"f", Ty.prim PrimT.bool, []⟩, 4⟩] := by
  rw [c5_no_match_appends _ _ (by decide)]
  rfl

/-- C4: vtable construction is deterministic and hole-free.  Without a
base class the member fold yields a dense vtable; with a base class whose
vtable is dense and whose slot names are pairwise distinct, and members
with pairwise distinct names, the resulting vtable is dense, and any
member that overrides (name plus equivalent signature) an inherited slot
occupies exactly that slot index with the inherited byte offset;
non-overriding members are appended, so density means slot `k` always
carries offset `k * VarSize`. -/
theorem c4_vtable_override_slots :
    (∀ members : List Fn, Dense (collectFn none members))
      ∧ ∀ (inherited : List VEntry) (members : List Fn),
          Dense inherited → (inherited.map entryName).Nodup →
          (members.map Fn.name).Nodup →
          Dense (collectFn (some inherited) members)
            ∧ ∀ i e fn, inherited.get? i = some e → fn ∈ members →
                isMatched fn e.fn = true →
                (collectFn (some inherited) members).get? i
                  = some (⟨fn, e.offset⟩ : VEntry) := by
  constructor
  · intro members
    show Dense (members.foldl appendFresh [])
    exact foldl_appendFresh_dense members [] (fun k e hk => by simp at hk)
  · intro inherited members hd hnd hmnd
    have hc : ∀ fn ∈ members, nameCount inherited fn.name ≤ 1 :=
      fun fn _ => nodup_nameCount inherited hnd fn.name
    exact collectFold_props members inherited hd hmnd hc

/-- C4 witness: classes `A { void f(); void g(); }` and
`B extends A { void f(); }`; `B.f` lands at slot 0 with offset 0 and the
resulting vtable is dense. -/
theorem c4_vtable_override_slots_witness :
    Dense (collectFn
        (some [⟨⟨"f", Ty.prim PrimT.voidT, []⟩, 0⟩,
               ⟨⟨"g", Ty.prim PrimT.voidT, []⟩, 4⟩])
        [⟨"f", Ty.prim PrimT.voidT, []⟩])
      ∧ (collectFn
          (some [⟨⟨"f", Ty.prim PrimT.voidT, []⟩, 0⟩,
                 ⟨⟨"g", Ty.prim PrimT.voidT, []⟩, 4⟩])
          [⟨"f", Ty.prim PrimT.voidT, []⟩]).get? 0
        = some ⟨⟨"f", Ty.prim PrimT.voidT, []⟩, 0⟩ := by
  have hd : Dense [⟨⟨"f", Ty.prim PrimT.voidT, []⟩, 0⟩,
      (⟨⟨"g", Ty.prim PrimT.voidT, []⟩, 4⟩ : VEntry)] := by
    intro k e hk
    match k with
    | 0 =>
      rw [List.get?_cons_zero, Option.some_inj] at hk
      subst hk
      rfl
    | 1 =>
      rw [List.get?_cons_succ, List.get?_cons_zero, Option.some_inj] at hk
      subst hk
      rfl
    | Nat.succ (Nat.succ k') => simp at hk
  have h := c4_vtable_override_slots.2
    [⟨⟨"f", Ty.prim PrimT.voidT, []⟩, 0⟩,
     ⟨⟨"g", Ty.prim PrimT.voidT, []⟩, 4⟩]
    [⟨"f", Ty.prim PrimT.voidT, []⟩]
    hd (by decide) (by decide)
  exact ⟨h.1, h.2 0 ⟨⟨"f", Ty.prim PrimT.voidT, []⟩, 0⟩
    ⟨"f", Ty.prim PrimT.voidT, []⟩ rfl (List.mem_cons_self _ _) (by decide)⟩

/-- `buildRange` produces one successor list per index, each computed by
the `AddSucc` dispatch on that instruction with its textual successor. -/
theorem buildRange_spec (lm : String → Option Nat) (code : List Instr) :
    ∀ (n i : Nat) (succs : List (List Nat)),
      buildRange lm code i n = some succs →
      succs.length = n
        ∧ ∀ k, k < n →
            succs.get? k
              = instrSucc lm (code.getD (i + k) Instr.EndFunc) (i + k + 1) := by
  intro n
  induction n with
  | zero =>
    intro i succs h
    unfold buildRange at h
    rw [Option.some_inj] at h
    subst h
    exact ⟨rfl, fun k hk => absurd hk (Nat.not_lt_zero k)⟩
  | succ n ih =>
    intro i succs h
    unfold buildRange at h
    cases h1 : instrSucc lm (code.getD i Instr.EndFunc) (i + 1) with
    | none => rw [h1] at h; exact absurd h (by simp)
    | some ss =>
      cases h2 : buildRange lm code (i + 1) n with
      | none => rw [h1, h2] at h; exact absurd h (by simp)
      | some rest =>
        rw [h1, h2, Option.some_inj] at h
        subst h
        obtain ⟨hlen, hk⟩ := ih (i + 1) rest h2
        refine ⟨by simp [hlen], ?_⟩
        intro k hklt
        match k with
        | 0 =>
          rw [List.get?_cons_zero]
          simp only [Nat.add_zero]
          exact h1.symm
        | Nat.succ k' =>
          rw [List.get?_cons_succ, hk k' (by omega)]
          congr 2 <;> omega

/-- C7: after CFG construction over a function window `[b, e)` (which
contains no `VTable` record), every instruction's successor list is
exactly the claimed one: the textually next instruction unless the
instruction is a `Goto`, `EndFunc` or `Return`, plus the instruction
bound to the target label for `Goto` and `IfZ`. -/
theorem c7_cfg_successors (code : List Instr) (b e : Nat)
    (succs : List (List Nat))
    (hnv : ∀ k, k < e - b →
      isVTableInstr (code.getD (b + k) Instr.EndFunc) = false)
    (hbc : buildControlFlow code b e = some succs) :
    succs.length = e - b
      ∧ ∀ k, k < e - b →
          succs.get? k
            = some (c7SuccSpec (collectLabels code)
                (code.getD (b + k) Instr.EndFunc) (b + k + 1)) := by
  obtain ⟨hlen, hval⟩ := buildRange_spec (collectLabels code) code (e - b) b succs hbc
  refine ⟨hlen, ?_⟩
  intro k hk
  have hv := hval k hk
  have hsomek : ∃ v, succs.get? k = some v := by
    have hklen : k < succs.length := by omega
    cases hq : succs.get? k with
    | none => rw [List.get?_eq_none] at hq; omega
    | some v => exact ⟨v, rfl⟩
  obtain ⟨v, hvk⟩ := hsomek
  rw [hvk] at hv
  have hnvk := hnv k hk
  cases hinst : code.getD (b + k) Instr.EndFunc with
  | Goto l =>
    rw [hinst] at hv
    rcases Option.map_eq_some'.mp hv.symm with ⟨t, hlm, hvt⟩
    rw [hvk, ← hvt]
    simp [c7SuccSpec, hlm]
  | IfZ test l =>
    rw [hinst] at hv
    rcases Option.map_eq_some'.mp hv.symm with ⟨t, hlm, hvt⟩
    rw [hvk, ← hvt]
    simp [c7SuccSpec, hlm]
  | VTable lbl mls => rw [hinst] at hnvk; simp [isVTableInstr] at hnvk
  | EndFunc => rw [hinst] at hv; rw [hvk, hv]; rfl
  | Return val => rw [hinst] at hv; rw [hvk, hv]; rfl
  | LoadConstant dst c => rw [hinst] at hv; rw [hvk, hv]; rfl
  | LoadStringConstant dst str => rw [hinst] at hv; rw [hvk, hv]; rfl
  | LoadLabel dst lbl => rw [hinst] at hv; rw [hvk, hv]; rfl
  | Assign dst src => rw [hinst] at hv; rw [hvk, hv]; rfl
  | Load dst src off => rw [hinst] at hv; rw [hvk, hv]; rfl
  | Store dst src off => rw [hinst] at hv; rw [hvk, hv]; rfl
  | BinaryOp op dst o1 o2 => rw [hinst] at hv; rw [hvk, hv]; rfl
  | Label lbl => rw [hinst] at hv; rw [hvk, hv]; rfl
  | BeginFunc fs => rw [hinst] at hv; rw [hvk, hv]; rfl
  | PushParam p => rw [hinst] at hv; rw [hvk, hv]; rfl
  | PopParams nb => rw [hinst] at hv; rw [hvk, hv]; rfl
  | LCall lbl dst => rw [hinst] at hv; rw [hvk, hv]; rfl
  | ACall addr dst => rw [hinst] at hv; rw [hvk, hv]; rfl

/-- C7 witness: the CFG of the concrete example window, with the `IfZ`
successor list read back through the claimed characterization. -/
theorem c7_cfg_successors_witness :
    ([[1], [2], [3, 4], [], [5], [6], [7]] : List (List Nat)).length = 7 - 0
      ∧ ([[1], [2], [3, 4], [], [5], [6], [7]] : List (List Nat)).get? 2
          = some (c7SuccSpec (collectLabels cfgExampleCode)
              (cfgExampleCode.getD (0 + 2) Instr.EndFunc) (0 + 2 + 1))
      ∧ ([[1], [2], [3, 4], [], [5], [6], [7]] : List (List Nat)).get? 5
          = some (c7SuccSpec (collectLabels cfgExampleCode)
              (cfgExampleCode.getD (0 + 5) Instr.EndFunc) (0 + 5 + 1)) := by
  have h := c7_cfg_successors cfgExampleCode 0 7
    [[1], [2], [3, 4], [], [5], [6], [7]] (by decide) (by decide)
  exact ⟨h.1, h.2 2 (by omega), h.2 5 (by omega)⟩

/-! Frame-counter and code-stream behaviour of the emission
primitives. -/

@[simp] theorem genLoadConstant_localCnt (v : Int) (s : GenSt) :
    (genLoadConstant v s).1.localCnt = s.localCnt + 1 := rfl

@[simp] theorem genLoadStringConstant_localCnt (str : String) (s : GenSt) :
    (genLoadStringConstant str s).1.localCnt = s.localCnt + 1 := rfl

@[simp] theorem genLoadLabel_localCnt (l : String) (s : GenSt) :
    (genLoadLabel l s).1.localCnt = s.localCnt + 1 := rfl

@[simp] theorem genLoad_localCnt (r : Location) (off : Int) (s : GenSt) :
    (genLoad r off s).1.localCnt = s.localCnt + 1 := rfl

@[simp] theorem genBinaryOp_localCnt (op : String) (a b : Location)
    (s : GenSt) : (genBinaryOp op a b s).1.localCnt = s.localCnt + 1 := rfl

@[simp] theorem genAssign_localCnt (d r : Location) (s : GenSt) :
    (genAssign d r s).localCnt = s.localCnt := rfl

@[simp] theorem genStore_localCnt (d r : Location) (off : Int) (s : GenSt) :
    (genStore d r off s).localCnt = s.localCnt := rfl

@[simp] theorem genLabel_localCnt (l : String) (s : GenSt) :
    (genLabel l s).localCnt = s.localCnt := rfl

@[simp] theorem genIfZ_localCnt (t : Location) (l : String) (s : GenSt) :
    (genIfZ t l s).localCnt = s.localCnt := rfl

@[simp] theorem genGoto_localCnt (l : String) (s : GenSt) :
    (genGoto l s).localCnt = s.localCnt := rfl

@[simp] theorem genReturn_localCnt (v : Location) (s : GenSt) :
    (genReturn v s).localCnt = s.localCnt := rfl

@[simp] theorem genPushParam_localCnt (p : Location) (s : GenSt) :
    (genPushParam p s).localCnt = s.localCnt := rfl

@[simp] theorem newLabel_localCnt (s : GenSt) :
    (newLabel s).1.localCnt = s.localCnt := rfl

@[simp] theorem genPopParams_localCnt (nb : Int) (s : GenSt) :
    (genPopParams nb s).localCnt = s.localCnt := by
  unfold genPopParams
  split <;> rfl

@[simp] theorem genLCall_localCnt (l : String) (hr : Bool) (s : GenSt) :
    (genLCall l hr s).1.localCnt = s.localCnt + (if hr then 1 else 0) := by
  cases hr <;> rfl

@[simp] theorem genACall_localCnt (a : Location) (hr : Bool) (s : GenSt) :
    (genACall a hr s).1.localCnt = s.localCnt + (if hr then 1 else 0) := by
  cases hr <;> rfl

@[simp] theorem genBuiltInCall_localCnt (bn : BuiltIn)
    (a1 a2 : Option Location) (s : GenSt) :
    (genBuiltInCall bn a1 a2 s).1.localCnt
      = s.localCnt + (if builtinHasReturn bn then 1 else 0) := by
  cases a1 <;> cases a2 <;> by_cases hb : builtinHasReturn bn <;>
    simp [genBuiltInCall, hb, genPushParam, emit1, genTempVar]

@[simp] theorem getValue_localCnt (v : EVal) (s : GenSt) :
    (getValue v s).1.localCnt = s.localCnt + gvcF v.form := by
  cases v <;> simp [getValue, gvcF, EVal.form]

@[simp] theorem pushAll_localCnt (ps : List Location) :
    ∀ s : GenSt, (pushAll ps s).localCnt = s.localCnt := by
  induction ps with
  | nil => intro s; rfl
  | cons p ps ih => intro s; rw [pushAll, List.foldl_cons]; exact ih _

theorem CodeExt.rfl (s : GenSt) : CodeExt s s := List.prefix_refl _

theorem CodeExt.trans {a b c : GenSt} (h1 : CodeExt a b) (h2 : CodeExt b c) :
    CodeExt a c := List.IsPrefix.trans h1 h2

theorem CodeExt.of_eq {a b : GenSt} (h : b.code = a.code) : CodeExt a b := by
  rw [CodeExt, h]

theorem codeExt_emit1 (i : Instr) (s : GenSt) : CodeExt s (emit1 i s) :=
  List.prefix_append _ _

theorem codeExt_genTempVar (s : GenSt) : CodeExt s (genTempVar s).1 :=
  CodeExt.rfl s

theorem codeExt_genThis (s : GenSt) : CodeExt s (genThis s).1 := CodeExt.rfl s

theorem codeExt_genLoadConstant (v : Int) (s : GenSt) :
    CodeExt s (genLoadConstant v s).1 := List.prefix_append _ _

theorem codeExt_genLoadStringConstant (str : String) (s : GenSt) :
    CodeExt s (genLoadStringConstant str s).1 := List.prefix_append _ _

theorem codeExt_genLoadLabel (l : String) (s : GenSt) :
    CodeExt s (genLoadLabel l s).1 := List.prefix_append _ _

theorem codeExt_genLoad (r : Location) (off : Int) (s : GenSt) :
    CodeExt s (genLoad r off s).1 := List.prefix_append _ _

theorem codeExt_genBinaryOp (op : String) (a b : Location) (s : GenSt) :
    CodeExt s (genBinaryOp op a b s).1 := List.prefix_append _ _

theorem codeExt_genAssign (d r : Location) (s : GenSt) :
    CodeExt s (genAssign d r s) := List.prefix_append _ _

theorem codeExt_genStore (d r : Location) (off : Int) (s : GenSt) :
    CodeExt s (genStore d r off s) := List.prefix_append _ _

theorem codeExt_genLabel (l : String) (s : GenSt) :
    CodeExt s (genLabel l s) := List.prefix_append _ _

theorem codeExt_genIfZ (t : Location) (l : String) (s : GenSt) :
    CodeExt s (genIfZ t l s) := List.prefix_append _ _

theorem codeExt_genGoto (l : String) (s : GenSt) :
    CodeExt s (genGoto l s) := List.prefix_append _ _

theorem codeExt_genReturn (v : Location) (s : GenSt) :
    CodeExt s (genReturn v s) := List.prefix_append _ _

theorem codeExt_genPushParam (p : Location) (s : GenSt) :
    CodeExt s (genPushParam p s) := List.prefix_append _ _

theorem codeExt_newLabel (s : GenSt) : CodeExt s (newLabel s).1 :=
  CodeExt.rfl s

theorem codeExt_genPopParams (nb : Int) (s : GenSt) :
    CodeExt s (genPopParams nb s) := by
  unfold genPopParams
  split
  · exact codeExt_emit1 _ s
  · exact CodeExt.rfl s

theorem codeExt_genLCall (l : String) (hr : Bool) (s : GenSt) :
    CodeExt s (genLCall l hr s).1 := by
  cases hr <;> exact List.prefix_append _ _

theorem codeExt_genACall (a : Location) (hr : Bool) (s : GenSt) :
    CodeExt s (genACall a hr s).1 := by
  cases hr <;> exact List.prefix_append _ _

theorem codeExt_genBuiltInCall (bn : BuiltIn) (a1 a2 : Option Location)
    (s : GenSt) : CodeExt s (genBuiltInCall bn a1 a2 s).1 := by
  cases a1 <;> cases a2 <;> by_cases hb : builtinHasReturn bn <;>
    simp [genBuiltInCall, hb, genPopParams, genPushParam, emit1, genTempVar,
      CodeExt] <;> split <;>
    simp [List.append_assoc, List.prefix_append]

theorem codeExt_getValue (v : EVal) (s : GenSt) :
    CodeExt s (getValue v s).1 := by
  cases v with
  | direct l => exact CodeExt.rfl s
  | address a off => exact codeExt_genLoad a off s
  | voidv => exact CodeExt.rfl s

theorem codeExt_pushAll (ps : List Location) :
    ∀ s : GenSt, CodeExt s (pushAll ps s) := by
  induction ps with
  | nil => intro s; exact CodeExt.rfl s
  | cons p ps ih =>
    intro s
    rw [pushAll, List.foldl_cons]
    exact (codeExt_genPushParam p s).trans (ih _)

theorem codeExt_evalAssign (v : EVal) (src : Location) (s : GenSt) :
    CodeExt s (evalAssign v src s) := by
  cases v with
  | direct d => exact codeExt_genAssign d src s
  | address a off => exact codeExt_genStore a src off s
  | voidv => exact CodeExt.rfl s

@[simp] theorem evalAssign_localCnt (v : EVal) (src : Location) (s : GenSt) :
    (evalAssign v src s).localCnt = s.localCnt := by
  cases v <;> simp [evalAssign]

set_option maxHeartbeats 1000000

mutual

/-- Lowering an expression advances the shared local/temporary counter by
exactly the statically determined allocation count, only appends to the
instruction stream, and yields a value of the statically determined
shape. -/
theorem emitExpr_inv : ∀ (e : Expr) (s : GenSt),
    (emitExpr e s).1.localCnt = s.localCnt + cntE e
      ∧ CodeExt s (emitExpr e s).1
      ∧ (emitExpr e s).2.form = formOf e
  | .intConst v, s => by
    refine ⟨?_, ?_, ?_⟩
    · simp only [emitExpr]
      simp [cntE]
      try omega
    · simp only [emitExpr]
      exact codeExt_genLoadConstant _ _
    · rfl
  | .boolConst b, s => by
    refine ⟨?_, ?_, ?_⟩
    · simp only [emitExpr]
      simp [cntE]
      try omega
    · simp only [emitExpr]
      exact codeExt_genLoadConstant _ _
    · rfl
  | .stringConst str, s => by
    refine ⟨?_, ?_, ?_⟩
    · simp only [emitExpr]
      simp [cntE]
      try omega
    · simp only [emitExpr]
      exact codeExt_genLoadStringConstant _ _
    · rfl
  | .nullConst, s => by
    refine ⟨?_, ?_, ?_⟩
    · simp only [emitExpr]
      simp [cntE]
      try omega
    · simp only [emitExpr]
      exact codeExt_genLoadConstant _ _
    · rfl
  | .thisE, s => by
    refine ⟨?_, ?_, ?_⟩
    · simp only [emitExpr]
      simp [cntE]
      try omega
    · simp only [emitExpr]
      exact codeExt_genThis _
    · rfl
  | .arith op (OptExpr.some le) r, s => by
    obtain ⟨hr1, hr2, hr3⟩ := emitExpr_inv r s
    obtain ⟨hl1, hl2, hl3⟩ :=
      emitExpr_inv le (getValue (emitExpr r s).2 (emitExpr r s).1).1
    refine ⟨?_, ?_, ?_⟩
    · simp only [emitExpr]
      simp [hr1, hr3, hl1, hl3, cntE, gvcE]
      try omega
    · simp only [emitExpr]
      exact ((hr2).trans ((codeExt_getValue _ _).trans ((hl2).trans
        ((codeExt_getValue _ _).trans (codeExt_genBinaryOp _ _ _ _)))))
    · rfl
  | .arith op OptExpr.none r, s => by
    obtain ⟨hr1, hr2, hr3⟩ := emitExpr_inv r s
    refine ⟨?_, ?_, ?_⟩
    · simp only [emitExpr]
      simp [hr1, hr3, cntE, gvcE]
      try omega
    · simp only [emitExpr]
      exact ((hr2).trans ((codeExt_getValue _ _).trans
        ((codeExt_genLoadConstant _ _).trans (codeExt_genBinaryOp _ _ _
        _))))
    · rfl
  | .rel RelOp.lt l r, s => by
    obtain ⟨hl1, hl2, hl3⟩ := emitExpr_inv l s
    obtain ⟨hr1, hr2, hr3⟩ := emitExpr_inv r (emitExpr l s).1
    refine ⟨?_, ?_, ?_⟩
    · simp only [emitExpr]
      simp [hl1, hl3, hr1, hr3, cntE, gvcE]
      try omega
    · simp only [emitExpr]
      exact ((hl2).trans ((hr2).trans ((codeExt_getValue _ _).trans
        ((codeExt_getValue _ _).trans (codeExt_genBinaryOp _ _ _ _)))))
    · rfl
  | .rel RelOp.gt l r, s => by
    obtain ⟨hl1, hl2, hl3⟩ := emitExpr_inv l s
    obtain ⟨hr1, hr2, hr3⟩ := emitExpr_inv r (emitExpr l s).1
    refine ⟨?_, ?_, ?_⟩
    · simp only [emitExpr]
      simp [hl1, hl3, hr1, hr3, cntE, gvcE]
      try omega
    · simp only [emitExpr]
      exact ((hl2).trans ((hr2).trans ((codeExt_getValue _ _).trans
        ((codeExt_getValue _ _).trans (codeExt_genBinaryOp _ _ _ _)))))
    · rfl
  | .rel RelOp.le l r, s => by
    obtain ⟨hl1, hl2, hl3⟩ := emitExpr_inv l s
    obtain ⟨hr1, hr2, hr3⟩ := emitExpr_inv r (emitExpr l s).1
    refine ⟨?_, ?_, ?_⟩
    · simp only [emitExpr]
      simp [hl1, hl3, hr1, hr3, cntE, gvcE]
      try omega
    · simp only [emitExpr]
      exact ((hl2).trans ((hr2).trans ((codeExt_getValue _ _).trans
        ((codeExt_getValue _ _).trans ((codeExt_genBinaryOp _ _ _
        _).trans ((codeExt_genBinaryOp _ _ _ _).trans
        (codeExt_genBinaryOp _ _ _ _)))))))
    · rfl
  | .rel RelOp.ge l r, s => by
    obtain ⟨hl1, hl2, hl3⟩ := emitExpr_inv l s
    obtain ⟨hr1, hr2, hr3⟩ := emitExpr_inv r (emitExpr l s).1
    refine ⟨?_, ?_, ?_⟩
    · simp only [emitExpr]
      simp [hl1, hl3, hr1, hr3, cntE, gvcE]
      try omega
    · simp only [emitExpr]
      exact ((hl2).trans ((hr2).trans ((codeExt_getValue _ _).trans
        ((codeExt_getValue _ _).trans ((codeExt_genBinaryOp _ _ _
        _).trans ((codeExt_genBinaryOp _ _ _ _).trans
        (codeExt_genBinaryOp _ _ _ _)))))))
    · rfl
  | .equality EqOp.eq true l r, s => by
    obtain ⟨hl1, hl2, hl3⟩ := emitExpr_inv l s
    obtain ⟨hr1, hr2, hr3⟩ := emitExpr_inv r (emitExpr l s).1
    refine ⟨?_, ?_, ?_⟩
    · simp only [emitExpr]
      simp [hl1, hl3, hr1, hr3, cntE, gvcE, builtinHasReturn]
      try omega
    · simp only [emitExpr, reduceIte]
      exact ((hl2).trans ((hr2).trans ((codeExt_getValue _ _).trans
        ((codeExt_getValue _ _).trans (codeExt_genBuiltInCall _ _ _
        _)))))
    · rfl
  | .equality EqOp.eq false l r, s => by
    obtain ⟨hl1, hl2, hl3⟩ := emitExpr_inv l s
    obtain ⟨hr1, hr2, hr3⟩ := emitExpr_inv r (emitExpr l s).1
    refine ⟨?_, ?_, ?_⟩
    · simp only [emitExpr]
      simp [hl1, hl3, hr1, hr3, cntE, gvcE, builtinHasReturn]
      try omega
    · simp only [emitExpr, reduceIte]
      exact ((hl2).trans ((hr2).trans ((codeExt_getValue _ _).trans
        ((codeExt_getValue _ _).trans (codeExt_genBinaryOp _ _ _ _)))))
    · rfl
  | .equality EqOp.ne true l r, s => by
    obtain ⟨hl1, hl2, hl3⟩ := emitExpr_inv l s
    obtain ⟨hr1, hr2, hr3⟩ := emitExpr_inv r (emitExpr l s).1
    refine ⟨?_, ?_, ?_⟩
    · simp only [emitExpr]
      simp [hl1, hl3, hr1, hr3, cntE, gvcE, builtinHasReturn]
      try omega
    · simp only [emitExpr, reduceIte]
      exact ((hl2).trans ((hr2).trans ((codeExt_getValue _ _).trans
        ((codeExt_getValue _ _).trans ((codeExt_genBuiltInCall _ _ _
        _).trans ((codeExt_genLoadConstant _ _).trans
        (codeExt_genBinaryOp _ _ _ _)))))))
    · rfl
  | .equality EqOp.ne false l r, s => by
    obtain ⟨hl1, hl2, hl3⟩ := emitExpr_inv l s
    obtain ⟨hr1, hr2, hr3⟩ := emitExpr_inv r (emitExpr l s).1
    refine ⟨?_, ?_, ?_⟩
    · simp only [emitExpr]
      simp [hl1, hl3, hr1, hr3, cntE, gvcE, builtinHasReturn]
      try omega
    · simp only [emitExpr, reduceIte]
      exact ((hl2).trans ((hr2).trans ((codeExt_getValue _ _).trans
        ((codeExt_getValue _ _).trans ((codeExt_genBinaryOp _ _ _
        _).trans ((codeExt_genLoadConstant _ _).trans
        (codeExt_genBinaryOp _ _ _ _)))))))
    · rfl
  | .logical op (OptExpr.some le) r, s => by
    obtain ⟨hr1, hr2, hr3⟩ := emitExpr_inv r s
    obtain ⟨hl1, hl2, hl3⟩ :=
      emitExpr_inv le (getValue (emitExpr r s).2 (emitExpr r s).1).1
    refine ⟨?_, ?_, ?_⟩
    · simp only [emitExpr]
      simp [hr1, hr3, hl1, hl3, cntE, gvcE]
      try omega
    · simp only [emitExpr]
      exact ((hr2).trans ((codeExt_getValue _ _).trans ((hl2).trans
        ((codeExt_getValue _ _).trans (codeExt_genBinaryOp _ _ _ _)))))
    · rfl
  | .logical op OptExpr.none r, s => by
    obtain ⟨hr1, hr2, hr3⟩ := emitExpr_inv r s
    refine ⟨?_, ?_, ?_⟩
    · simp only [emitExpr]
      simp [hr1, hr3, cntE, gvcE]
      try omega
    · simp only [emitExpr]
      exact ((hr2).trans ((codeExt_getValue _ _).trans
        ((codeExt_genLoadConstant _ _).trans (codeExt_genBinaryOp _ _ _
        _))))
    · rfl
  | .assign l r, s => by
    obtain ⟨hl1, hl2, hl3⟩ := emitExpr_inv l s
    obtain ⟨hr1, hr2, hr3⟩ := emitExpr_inv r (emitExpr l s).1
    refine ⟨?_, ?_, ?_⟩
    · simp only [emitExpr]
      simp [hl1, hl3, hr1, hr3, cntE, gvcE]
      try omega
    · simp only [emitExpr]
      exact ((hl2).trans ((hr2).trans ((codeExt_getValue _ _).trans
        (codeExt_evalAssign _ _ _))))
    · simp only [emitExpr, formOf]; exact hl3
  | .fieldAccess (VarRef.direct loc) base, s => by
    refine ⟨?_, ?_, ?_⟩
    · simp only [emitExpr]
      simp [cntE]
      try omega
    · simp only [emitExpr]
      exact CodeExt.rfl s
    · rfl
  | .fieldAccess (VarRef.field off) (OptExpr.some b), s => by
    obtain ⟨hb1, hb2, hb3⟩ := emitExpr_inv b s
    refine ⟨?_, ?_, ?_⟩
    · simp only [emitExpr]
      simp [hb1, hb3, cntE, cntO, gvcE]
      try omega
    · simp only [emitExpr]
      exact ((hb2).trans (codeExt_getValue _ _))
    · rfl
  | .fieldAccess (VarRef.field off) OptExpr.none, s => by
    refine ⟨?_, ?_, ?_⟩
    · simp only [emitExpr]
      simp [cntE, cntO]
      try omega
    · simp only [emitExpr]
      exact codeExt_genThis _
    · rfl
  | .arrayAccess b idx, s => by
    obtain ⟨hb1, hb2, hb3⟩ := emitExpr_inv b s
    obtain ⟨hi1, hi2, hi3⟩ := emitExpr_inv idx (emitExpr b s).1
    refine ⟨?_, ?_, ?_⟩
    · simp only [emitExpr]
      simp [hb1, hb3, hi1, hi3, cntE, gvcE, builtinHasReturn]
      try omega
    · simp only [emitExpr]
      exact ((hb2).trans ((hi2).trans ((codeExt_getValue _ _).trans
        ((codeExt_getValue _ _).trans ((codeExt_genLoad _ _ _).trans
        ((codeExt_newLabel _).trans ((codeExt_newLabel _).trans
        ((codeExt_genLoadConstant _ _).trans ((codeExt_genBinaryOp _ _ _
        _).trans ((codeExt_genBinaryOp _ _ _ _).trans
        ((codeExt_genBinaryOp _ _ _ _).trans ((codeExt_genIfZ _ _
        _).trans ((codeExt_genLoadConstant _ _).trans
        ((codeExt_genBinaryOp _ _ _ _).trans ((codeExt_genBinaryOp _ _ _
        _).trans ((codeExt_genGoto _ _).trans ((codeExt_genLabel _
        _).trans ((codeExt_genLoadStringConstant _ _).trans
        ((codeExt_genBuiltInCall _ _ _ _).trans ((codeExt_genBuiltInCall
        _ _ _ _).trans (codeExt_genLabel _ _)))))))))))))))))))))
    · rfl
  | .call base (CallTarget.globalFn label hasRet) actuals, s => by
    obtain ⟨ha1, ha2, ha3⟩ := emitActuals_inv actuals s
    cases hasRet with
    | true =>
      refine ⟨?_, ?_, rfl⟩
      · simp only [emitExpr]
        simp [ha1, cntE]
        try omega
      · simp only [emitExpr]
        exact ((ha2).trans ((codeExt_pushAll _ _).trans
          ((codeExt_genLCall _ _ _).trans (codeExt_genPopParams _
          _))))
    | false =>
      refine ⟨?_, ?_, rfl⟩
      · simp only [emitExpr]
        simp [ha1, cntE]
        try omega
      · simp only [emitExpr]
        exact ((ha2).trans ((codeExt_pushAll _ _).trans
          ((codeExt_genLCall _ _ _).trans (codeExt_genPopParams _
          _))))
  | .call base (CallTarget.method off hasRet) actuals, s => by
    obtain ⟨ho1, ho2⟩ := emitReceiver_inv base s
    obtain ⟨ha1, ha2, ha3⟩ := emitActuals_inv actuals
      (genLoad (genLoad (emitReceiver base s).2 0 (emitReceiver base s).1).2 off
        (genLoad (emitReceiver base s).2 0 (emitReceiver base s).1).1).1
    cases hasRet with
    | true =>
      refine ⟨?_, ?_, rfl⟩
      · simp only [emitExpr]
        simp [ho1, ha1, cntE]
        try omega
      · simp only [emitExpr]
        exact ((ho2).trans ((codeExt_genLoad _ _ _).trans
          ((codeExt_genLoad _ _ _).trans ((ha2).trans
          ((codeExt_pushAll _ _).trans ((codeExt_genACall _ _ _).trans
          (codeExt_genPopParams _ _)))))))
    | false =>
      refine ⟨?_, ?_, rfl⟩
      · simp only [emitExpr]
        simp [ho1, ha1, cntE]
        try omega
      · simp only [emitExpr]
        exact ((ho2).trans ((codeExt_genLoad _ _ _).trans
          ((codeExt_genLoad _ _ _).trans ((ha2).trans
          ((codeExt_pushAll _ _).trans ((codeExt_genACall _ _ _).trans
          (codeExt_genPopParams _ _)))))))
  | .call (OptExpr.some b) CallTarget.arrayLength actuals, s => by
    obtain ⟨hb1, hb2, hb3⟩ := emitExpr_inv b s
    refine ⟨?_, ?_, ?_⟩
    · simp only [emitExpr]
      simp [hb1, hb3, cntE, gvcE]
      try omega
    · simp only [emitExpr]
      exact ((hb2).trans ((codeExt_getValue _ _).trans (codeExt_genLoad
        _ _ _)))
    · rfl
  | .call OptExpr.none CallTarget.arrayLength actuals, s => by
    refine ⟨?_, ?_, ?_⟩
    · simp only [emitExpr]
      simp [cntE]
      try omega
    · simp only [emitExpr]
      exact CodeExt.rfl s
    · rfl
  | .newObj clsName clsSize, s => by
    refine ⟨?_, ?_, ?_⟩
    · simp only [emitExpr]
      simp [cntE, builtinHasReturn]
      try omega
    · simp only [emitExpr]
      exact ((codeExt_genLoadConstant _ _).trans
        ((codeExt_genBuiltInCall _ _ _ _).trans ((codeExt_genLoadLabel _
        _).trans (codeExt_genStore _ _ _ _))))
    · rfl
  | .newArr size, s => by
    obtain ⟨hs1, hs2, hs3⟩ := emitExpr_inv size s
    refine ⟨?_, ?_, ?_⟩
    · simp only [emitExpr]
      simp [hs1, hs3, cntE, gvcE, builtinHasReturn]
      try omega
    · simp only [emitExpr]
      exact ((hs2).trans ((codeExt_getValue _ _).trans
        ((codeExt_genLoadConstant _ _).trans ((codeExt_newLabel _).trans
        ((codeExt_genBinaryOp _ _ _ _).trans ((codeExt_genIfZ _ _
        _).trans ((codeExt_genLoadStringConstant _ _).trans
        ((codeExt_genBuiltInCall _ _ _ _).trans ((codeExt_genBuiltInCall
        _ _ _ _).trans ((codeExt_genLabel _ _).trans
        ((codeExt_genLoadConstant _ _).trans ((codeExt_genBinaryOp _ _ _
        _).trans ((codeExt_genBinaryOp _ _ _ _).trans
        ((codeExt_genBuiltInCall _ _ _ _).trans ((codeExt_genStore _ _ _
        _).trans (codeExt_genBinaryOp _ _ _ _))))))))))))))))
    · rfl
  | .readIntegerE, s => by
    refine ⟨?_, ?_, ?_⟩
    · simp only [emitExpr]
      simp [cntE, builtinHasReturn]
      try omega
    · simp only [emitExpr]
      exact codeExt_genBuiltInCall _ _ _ _
    · rfl
  | .readLineE, s => by
    refine ⟨?_, ?_, ?_⟩
    · simp only [emitExpr]
      simp [cntE, builtinHasReturn]
      try omega
    · simp only [emitExpr]
      exact codeExt_genBuiltInCall _ _ _ _
    · rfl

/-- Lowering a receiver advances the counter by its allocation count and
only appends code. -/
theorem emitReceiver_inv : ∀ (b : OptExpr) (s : GenSt),
    (emitReceiver b s).1.localCnt = s.localCnt + cntO b
      ∧ CodeExt s (emitReceiver b s).1
  | OptExpr.some b, s => by
    obtain ⟨hb1, hb2, hb3⟩ := emitExpr_inv b s
    refine ⟨?_, ?_⟩
    · simp only [emitReceiver]
      simp [hb1, hb3, cntO, gvcE]
      try omega
    · simp only [emitReceiver]
      exact hb2.trans (codeExt_getValue _ _)
  | OptExpr.none, s => by
    refine ⟨?_, ?_⟩
    · simp [emitReceiver, cntO]
    · simp only [emitReceiver]
      exact codeExt_genThis s

/-- The actual-argument loop advances the counter by the summed
allocation counts, only appends code, and yields one value per actual. -/
theorem emitActuals_inv : ∀ (L : ExprList) (s : GenSt),
    (emitActuals L s).1.localCnt = s.localCnt + cntL L
      ∧ CodeExt s (emitActuals L s).1
      ∧ (emitActuals L s).2.length = ExprList.length L
  | ExprList.nil, s => ⟨rfl, CodeExt.rfl s, rfl⟩
  | ExprList.cons e es, s => by
    obtain ⟨he1, he2, he3⟩ := emitExpr_inv e s
    obtain ⟨hr1, hr2, hr3⟩ := emitActuals_inv es
      (getValue (emitExpr e s).2 (emitExpr e s).1).1
    refine ⟨?_, ?_, ?_⟩
    · simp only [emitActuals]
      simp [he1, he3, hr1, cntL, gvcE]
      try omega
    · simp only [emitActuals]
      exact he2.trans ((codeExt_getValue _ _).trans hr2)
    · simp only [emitActuals]
      simp [hr3, ExprList.length]

end


/-! The call convention and assignment-order theorems. -/

/-- The `InsertAt(param, 0)` loop builds the reversed value list on top
of the initial list. -/
theorem foldl_cons_rev (vals : List Location) :
    ∀ init : List Location,
      vals.foldl (fun acc v => v :: acc) init = vals.reverse ++ init := by
  induction vals with
  | nil => intro init; rfl
  | cons v vs ih =>
    intro init
    rw [List.foldl_cons, ih (v :: init), List.reverse_cons, List.append_assoc]
    rfl

/-- `pushAll` appends one `PushParam` per parameter, in list order. -/
theorem pushAll_code (ps : List Location) :
    ∀ s : GenSt, (pushAll ps s).code = s.code ++ ps.map Instr.PushParam := by
  induction ps with
  | nil => intro s; simp [pushAll]
  | cons p ps ih =>
    intro s
    rw [pushAll, List.foldl_cons]
    rw [show List.foldl (fun st p => genPushParam p st) (genPushParam p s) ps
        = pushAll ps (genPushParam p s) from rfl]
    rw [ih (genPushParam p s)]
    simp [genPushParam, emit1]

/-- `GenACall` appends exactly one `ACall` carrying its result slot. -/
theorem genACall_code (a : Location) (hr : Bool) (s : GenSt) :
    (genACall a hr s).1.code
      = s.code ++ [Instr.ACall a (genACall a hr s).2] := by
  cases hr <;> rfl

/-- The `ACall` destination exists exactly for value-returning
callees. -/
theorem genACall_isSome (a : Location) (hr : Bool) (s : GenSt) :
    (genACall a hr s).2.isSome = hr := by
  cases hr <;> rfl

/-- `GenPopParams` emits the `PopParams` whenever the byte count is
positive. -/
theorem genPopParams_code_pos (nb : Int) (s : GenSt) (h : 0 < nb) :
    (genPopParams nb s).code = s.code ++ [Instr.PopParams nb] := by
  simp [genPopParams, h, emit1]

/-- `LValue::Assign` appends exactly its one instruction. -/
theorem evalAssign_code (v : EVal) (src : Location) (s : GenSt) :
    (evalAssign v src s).code = s.code ++ assignCode v src := by
  cases v <;> simp [evalAssign, genAssign, genStore, emit1, assignCode]

/-- The post-actuals tail of the method path of `Call::Emit`: reverse
pushes with the receiver last, one `ACall`, one `PopParams` of
`(k + 1) * VarSize` bytes. -/
theorem callTail_code (po fa : Location) (vals : List Location)
    (hasRet : Bool) (sa : GenSt) :
    (genPopParams
        (((vals.foldl (fun acc v => v :: acc) [po]).length : Int) * VarSize)
        (genACall fa hasRet
          (pushAll (vals.foldl (fun acc v => v :: acc) [po]) sa)).1).code
      = sa.code ++ ((vals.reverse ++ [po]).map Instr.PushParam)
        ++ [Instr.ACall fa
              (genACall fa hasRet
                (pushAll (vals.foldl (fun acc v => v :: acc) [po]) sa)).2]
        ++ [Instr.PopParams (((vals.length : Int) + 1) * VarSize)] := by
  rw [foldl_cons_rev]
  have hlen : (((vals.reverse ++ [po]).length : Int))
      = (vals.length : Int) + 1 := by
    simp
  have hpos : (0 : Int)
      < ((vals.reverse ++ [po]).length : Int) * VarSize := by
    rw [hlen]
    have : (0 : Int) ≤ (vals.length : Int) := Int.ofNat_nonneg _
    simp only [VarSize]
    omega
  rw [genPopParams_code_pos _ _ hpos, genACall_code, pushAll_code, hlen]
  try simp [List.append_assoc]

/-- C3: for every method call with `k` actuals, lowering evaluates the
actuals left to right (after the receiver, vtable and method-address
loads — the `methodCallPre` phase), and then the emitted sequence is
exactly `k + 1` `PushParam`s in reverse argument order with the receiver
(`this` when there is no explicit base) pushed last, followed by exactly
one `ACall` on the loaded method address, followed by one
`PopParams((k + 1) * VarSize)`. -/
theorem c3_method_call_convention (base : OptExpr) (actuals : ExprList)
    (off : Int) (hasRet : Bool) (s : GenSt) :
    ∃ dst : Option Location,
      (emitExpr (Expr.call base (CallTarget.method off hasRet) actuals)
          s).1.code
        = (methodCallPre base off actuals s).st.code
          ++ (((methodCallPre base off actuals s).vals.reverse
                ++ [(methodCallPre base off actuals s).obj]).map
                  Instr.PushParam)
          ++ [Instr.ACall (methodCallPre base off actuals s).fnAddr dst]
          ++ [Instr.PopParams
                (((ExprList.length actuals : Int) + 1) * VarSize)]
      ∧ (((methodCallPre base off actuals s).vals.reverse
            ++ [(methodCallPre base off actuals s).obj]).map
              Instr.PushParam).length = ExprList.length actuals + 1
      ∧ (((methodCallPre base off actuals s).vals.reverse
            ++ [(methodCallPre base off actuals s).obj]).map
              Instr.PushParam).getLast?
          = some (Instr.PushParam (methodCallPre base off actuals s).obj)
      ∧ (methodCallPre base off actuals s).vals.length
          = ExprList.length actuals
      ∧ dst.isSome = hasRet
      ∧ (base = OptExpr.none
          → (methodCallPre base off actuals s).obj.name = "this") := by
  have hlen : (methodCallPre base off actuals s).vals.length
      = ExprList.length actuals := by
    simp only [methodCallPre]
    exact (emitActuals_inv actuals _).2.2
  refine ⟨(genACall (methodCallPre base off actuals s).fnAddr hasRet
      (pushAll
        ((methodCallPre base off actuals s).vals.foldl
          (fun acc v => v :: acc) [(methodCallPre base off actuals s).obj])
        (methodCallPre base off actuals s).st)).2, ?_, ?_, ?_, hlen, ?_, ?_⟩
  · show (emitExpr (Expr.call base (CallTarget.method off hasRet) actuals)
        s).1.code = _
    have := callTail_code (methodCallPre base off actuals s).obj
      (methodCallPre base off actuals s).fnAddr
      (methodCallPre base off actuals s).vals hasRet
      (methodCallPre base off actuals s).st
    rw [hlen] at this
    exact this
  · rw [List.map_append, List.length_append, List.length_map,
      List.length_reverse, hlen]
    rfl
  · rw [List.map_append]
    exact List.getLast?_concat _
  · exact genACall_isSome _ _ _
  · intro hb
    subst hb
    rfl

/-- C3 witness: a concrete one-argument method call with no explicit
base, pushed through the convention theorem. -/
theorem c3_method_call_convention_witness :
    ∃ dst : Option Location,
      (emitExpr (Expr.call OptExpr.none (CallTarget.method 4 true)
          (ExprList.cons (Expr.intConst 5) ExprList.nil)) st0).1.code
        = (methodCallPre OptExpr.none 4
              (ExprList.cons (Expr.intConst 5) ExprList.nil) st0).st.code
          ++ (((methodCallPre OptExpr.none 4
                (ExprList.cons (Expr.intConst 5) ExprList.nil) st0).vals.reverse
                ++ [(methodCallPre OptExpr.none 4
                    (ExprList.cons (Expr.intConst 5) ExprList.nil) st0).obj]).map
                  Instr.PushParam)
          ++ [Instr.ACall (methodCallPre OptExpr.none 4
                (ExprList.cons (Expr.intConst 5) ExprList.nil) st0).fnAddr dst]
          ++ [Instr.PopParams
                (((ExprList.length
                    (ExprList.cons (Expr.intConst 5) ExprList.nil) : Int) + 1)
                  * VarSize)]
      ∧ (methodCallPre OptExpr.none 4
            (ExprList.cons (Expr.intConst 5) ExprList.nil) st0).obj.name
          = "this" := by
  obtain ⟨dst, h1, h2, h3, h4, h5, h6⟩ := c3_method_call_convention
    OptExpr.none (ExprList.cons (Expr.intConst 5) ExprList.nil) 4 true st0
  exact ⟨dst, h1, h6 rfl⟩

/-- C6 counterexample: for `x[0] = 7`, the code emitted by
`AssignExpr::Emit` begins with the left-hand side's instructions (the
subscript constant 0), not the right-hand side's constant 7 as the
claimed RHS-first order would produce; the two orders yield different
streams. -/
theorem c6_assign_order_counterexample :
    (emitExpr (Expr.assign c6ExampleLhs c6ExampleRhs) st0).1.code
        ≠ (emitAssignSpecC6 c6ExampleLhs c6ExampleRhs st0).code
      ∧ (emitExpr (Expr.assign c6ExampleLhs c6ExampleRhs) st0).1.code.head?
          = some (Instr.LoadConstant ⟨1, "_tmp0", Segment.fpRelative, -8⟩ 0)
      ∧ (emitAssignSpecC6 c6ExampleLhs c6ExampleRhs st0).code.head?
          = some (Instr.LoadConstant ⟨1, "_tmp0", Segment.fpRelative, -8⟩ 7)
      := by
  have h1 : (emitExpr (Expr.assign c6ExampleLhs c6ExampleRhs) st0).1.code.head?
      = some (Instr.LoadConstant ⟨1, "_tmp0", Segment.fpRelative, -8⟩ 0) := by
    decide
  have h2 : (emitAssignSpecC6 c6ExampleLhs c6ExampleRhs st0).code.head?
      = some (Instr.LoadConstant ⟨1, "_tmp0", Segment.fpRelative, -8⟩ 7) := by
    decide
  refine ⟨?_, h1, h2⟩
  intro h
  rw [h, h2] at h1
  exact absurd h1 (by decide)

/-- C6 amended: `AssignExpr::Emit` lowers the left-hand side first, then
the right-hand side, then reads the right value (one extra `Load` when
the right side is an address-form L-value) and finally emits exactly one
`Assign` to a named Location or one `Store(addr, src, offset)` for a
computed address. -/
theorem c6_assign_lowers_lhs_first (l r : Expr) (s : GenSt) :
    ∃ tl tr tv : List Instr,
      (emitExpr l s).1.code = s.code ++ tl
      ∧ (emitExpr r (emitExpr l s).1).1.code = s.code ++ tl ++ tr
      ∧ (getValue (emitExpr r (emitExpr l s).1).2
            (emitExpr r (emitExpr l s).1).1).1.code
          = s.code ++ tl ++ tr ++ tv
      ∧ (emitExpr (Expr.assign l r) s).1.code
          = s.code ++ tl ++ tr ++ tv
            ++ assignCode (emitExpr l s).2
                (getValue (emitExpr r (emitExpr l s).1).2
                  (emitExpr r (emitExpr l s).1).1).2
      ∧ (∀ d src, assignCode (EVal.direct d) src = [Instr.Assign d src])
      ∧ ∀ a off src, assignCode (EVal.address a off) src
          = [Instr.Store a src off] := by
  obtain ⟨tl, htl⟩ := (emitExpr_inv l s).2.1
  obtain ⟨tr, htr⟩ := (emitExpr_inv r (emitExpr l s).1).2.1
  obtain ⟨tv, htv⟩ := codeExt_getValue (emitExpr r (emitExpr l s).1).2
    (emitExpr r (emitExpr l s).1).1
  refine ⟨tl, tr, tv, htl.symm, ?_, ?_, ?_, fun d src => rfl,
    fun a off src => rfl⟩
  · rw [← htr, ← htl, List.append_assoc]
  · rw [← htv, ← htr, ← htl]
    try simp [List.append_assoc]
  · show (evalAssign (emitExpr l s).2
        (getValue (emitExpr r (emitExpr l s).1).2
          (emitExpr r (emitExpr l s).1).1).2
        (getValue (emitExpr r (emitExpr l s).1).2
          (emitExpr r (emitExpr l s).1).1).1).code = _
    rw [evalAssign_code, ← htv, ← htr, ← htl]
    try simp [List.append_assoc]

/-- C6 amended, witness: the decomposition evaluated on the concrete
assignment `x[0] = 7`. -/
theorem c6_assign_lowers_lhs_first_witness :
    ∃ tl tr tv : List Instr,
      (emitExpr c6ExampleLhs st0).1.code = st0.code ++ tl
      ∧ (emitExpr c6ExampleRhs (emitExpr c6ExampleLhs st0).1).1.code
          = st0.code ++ tl ++ tr
      ∧ (getValue (emitExpr c6ExampleRhs (emitExpr c6ExampleLhs st0).1).2
            (emitExpr c6ExampleRhs (emitExpr c6ExampleLhs st0).1).1).1.code
          = st0.code ++ tl ++ tr ++ tv
      ∧ (emitExpr (Expr.assign c6ExampleLhs c6ExampleRhs) st0).1.code
          = st0.code ++ tl ++ tr ++ tv
            ++ assignCode (emitExpr c6ExampleLhs st0).2
                (getValue
                  (emitExpr c6ExampleRhs (emitExpr c6ExampleLhs st0).1).2
                  (emitExpr c6ExampleRhs (emitExpr c6ExampleLhs st0).1).1).2 := by
  obtain ⟨tl, tr, tv, h1, h2, h3, h4, -, -⟩ :=
    c6_assign_lowers_lhs_first c6ExampleLhs c6ExampleRhs st0
  exact ⟨tl, tr, tv, h1, h2, h3, h4⟩

/-- C9 counterexample: the zero-argument built-in `ReadLine` emits only
the `LCall` — `GenPopParams(0)` appends nothing, so there is no
post-call `PopParams` instruction, contrary to the claim. -/
theorem c9_zero_arg_no_popparams_counterexample :
    (genBuiltInCall BuiltIn.ReadLine none none st0).1.code
        = [Instr.LCall "_ReadLine"
            (some ⟨1, "_tmp0", Segment.fpRelative, -8⟩)]
      ∧ Instr.PopParams 0 ∉ (genBuiltInCall BuiltIn.ReadLine none none
          st0).1.code
      ∧ (genBuiltInCall BuiltIn.ReadLine none none st0).1.code.length = 1 := by
  refine ⟨by decide, by decide, by decide⟩

/-- C9 amended: every built-in call emits the reverse-order `PushParam`s
(arg2 then arg1), then one `LCall` on the table label whose destination
exists iff the built-in returns a value, then a `PopParams(numArgs *
VarSize)` exactly when `numArgs > 0`; zero-argument built-ins emit no
`PopParams`. -/
theorem c9_builtin_call_sequence (bn : BuiltIn) (arg1 arg2 : Option Location)
    (s : GenSt) :
    ∃ dst : Option Location,
      (genBuiltInCall bn arg1 arg2 s).1.code
        = s.code
          ++ (match arg2 with
              | some a2 => [Instr.PushParam a2]
              | none => [])
          ++ (match arg1 with
              | some a1 => [Instr.PushParam a1]
              | none => [])
          ++ [Instr.LCall (builtinLabel bn) dst]
          ++ (if 0 < builtinNumArgs bn
              then [Instr.PopParams (VarSize * (builtinNumArgs bn : Int))]
              else [])
      ∧ (dst.isSome ↔ builtinHasReturn bn = true) := by
  refine ⟨(genBuiltInCall bn arg1 arg2 s).2, ?_, ?_⟩
  · cases bn <;> cases arg1 <;> cases arg2 <;>
      simp [genBuiltInCall, genPopParams, builtinLabel, builtinNumArgs,
        builtinHasReturn, genPushParam, emit1, genTempVar, VarSize]
  · cases bn <;> cases arg1 <;> cases arg2 <;>
      simp [genBuiltInCall, builtinHasReturn, genTempVar]

theorem foldl_genLocalVar_localCnt (decls : List String) :
    ∀ s : GenSt,
      (decls.foldl (fun st n => (genLocalVar n st).1) s).localCnt
        = s.localCnt + decls.length := by
  induction decls with
  | nil => intro s; rfl
  | cons d ds ih =>
    intro s
    rw [List.foldl_cons, ih]
    simp [genLocalVar]
    omega

theorem foldl_genLocalVar_code (decls : List String) :
    ∀ s : GenSt,
      (decls.foldl (fun st n => (genLocalVar n st).1) s).code = s.code := by
  induction decls with
  | nil => intro s; rfl
  | cons d ds ih =>
    intro s
    rw [List.foldl_cons, ih]
    rfl

theorem foldl_genParamVar_localCnt (ps : List String) :
    ∀ s : GenSt,
      (ps.foldl (fun st n => (genParamVar n st).1) s).localCnt
        = s.localCnt := by
  induction ps with
  | nil => intro s; rfl
  | cons p ps ih =>
    intro s
    rw [List.foldl_cons, ih]
    rfl

theorem foldl_genParamVar_code (ps : List String) :
    ∀ s : GenSt,
      (ps.foldl (fun st n => (genParamVar n st).1) s).code = s.code := by
  induction ps with
  | nil => intro s; rfl
  | cons p ps ih =>
    intro s
    rw [List.foldl_cons, ih]
    rfl

theorem builtinHasReturn_printBuiltin (k : PKind) :
    builtinHasReturn (printBuiltin k) = false := by
  cases k <;> rfl

theorem emitPrintArgs_inv (args : List (Expr × PKind)) :
    ∀ s : GenSt,
      (emitPrintArgs args s).localCnt = s.localCnt + cntPrintArgs args
        ∧ CodeExt s (emitPrintArgs args s) := by
  induction args with
  | nil =>
    intro s
    exact ⟨by simp [emitPrintArgs, cntPrintArgs], CodeExt.rfl s⟩
  | cons p ps ih =>
    intro s
    obtain ⟨he1, he2, he3⟩ := emitExpr_inv p.1 s
    obtain ⟨hp1, hp2⟩ := ih
      ((genBuiltInCall (printBuiltin p.2)
        (some (getValue (emitExpr p.1 s).2 (emitExpr p.1 s).1).2) none
        (getValue (emitExpr p.1 s).2 (emitExpr p.1 s).1).1).1)
    have hstep : emitPrintArgs (p :: ps) s
        = emitPrintArgs ps
            ((genBuiltInCall (printBuiltin p.2)
              (some (getValue (emitExpr p.1 s).2 (emitExpr p.1 s).1).2) none
              (getValue (emitExpr p.1 s).2 (emitExpr p.1 s).1).1).1) := rfl
    refine ⟨?_, ?_⟩
    · rw [hstep, hp1]
      simp [he1, he3, builtinHasReturn_printBuiltin, cntPrintArgs, gvcE]
      try omega
    · rw [hstep]
      exact he2.trans ((codeExt_getValue _ _).trans
        ((codeExt_genBuiltInCall _ _ _ _).trans hp2))

mutual

/-- Lowering a statement advances the shared local/temporary counter by
exactly the statically determined allocation count (named locals plus
temporaries), and only appends to the instruction stream. -/
theorem emitStmt_inv : ∀ (t : Stmt) (brk : Option String) (s : GenSt),
    (emitStmt t brk s).localCnt = s.localCnt + cntS t
      ∧ CodeExt s (emitStmt t brk s)
  | .expr e => by
    intro brk s
    obtain ⟨he1, he2, he3⟩ := emitExpr_inv e s
    refine ⟨?_, ?_⟩
    · simp only [emitStmt]
      simp [he1, cntS]
    · simp only [emitStmt]
      exact he2
  | .block decls stmts => by
    intro brk s
    have ih1 := fun (b : Option String) (st2 : GenSt) =>
      (emitStmtList_inv stmts b st2).1
    refine ⟨?_, ?_⟩
    · simp only [emitStmt]
      rw [ih1, foldl_genLocalVar_localCnt]
      simp [cntS]
      try omega
    · simp only [emitStmt]
      exact (CodeExt.of_eq (foldl_genLocalVar_code decls s)).trans
        (emitStmtList_inv stmts brk _).2
  | .ifS t th => by
    intro brk s
    have hte1 := fun (st2 : GenSt) => (emitExpr_inv t st2).1
    have hte3 := fun (st2 : GenSt) => (emitExpr_inv t st2).2.2
    have ih1 := fun (b : Option String) (st2 : GenSt) =>
      (emitStmt_inv th b st2).1
    refine ⟨?_, ?_⟩
    · simp only [emitStmt]
      simp [ih1, hte1, hte3, cntS, gvcE]
      try omega
    · simp only [emitStmt]
      exact ((emitExpr_inv t s).2.1).trans ((codeExt_getValue _ _).trans
        ((codeExt_newLabel _).trans ((codeExt_genIfZ _ _ _).trans
        ((emitStmt_inv th _ _).2.trans (codeExt_genLabel _ _)))))
  | .ifElseS t th el => by
    intro brk s
    have hte1 := fun (st2 : GenSt) => (emitExpr_inv t st2).1
    have hte3 := fun (st2 : GenSt) => (emitExpr_inv t st2).2.2
    have ih1 := fun (b : Option String) (st2 : GenSt) =>
      (emitStmt_inv th b st2).1
    have ih2 := fun (b : Option String) (st2 : GenSt) =>
      (emitStmt_inv el b st2).1
    refine ⟨?_, ?_⟩
    · simp only [emitStmt]
      simp [ih1, ih2, hte1, hte3, cntS, gvcE]
      try omega
    · simp only [emitStmt]
      exact ((emitExpr_inv t s).2.1).trans ((codeExt_getValue _ _).trans
        ((codeExt_newLabel _).trans ((codeExt_newLabel _).trans
        ((codeExt_genIfZ _ _ _).trans ((emitStmt_inv th _ _).2.trans
        ((codeExt_genGoto _ _).trans ((codeExt_genLabel _ _).trans
        ((emitStmt_inv el _ _).2.trans (codeExt_genLabel _ _)))))))))
  | .whileS t body => by
    intro brk s
    have hte1 := fun (st2 : GenSt) => (emitExpr_inv t st2).1
    have hte3 := fun (st2 : GenSt) => (emitExpr_inv t st2).2.2
    have ih1 := fun (b : Option String) (st2 : GenSt) =>
      (emitStmt_inv body b st2).1
    refine ⟨?_, ?_⟩
    · simp only [emitStmt]
      simp [ih1, hte1, hte3, cntS, gvcE]
      try omega
    · simp only [emitStmt]
      exact (codeExt_newLabel _).trans ((codeExt_newLabel _).trans
        ((codeExt_genLabel _ _).trans (((emitExpr_inv t _).2.1).trans
        ((codeExt_getValue _ _).trans ((codeExt_genIfZ _ _ _).trans
        ((emitStmt_inv body _ _).2.trans ((codeExt_genGoto _ _).trans
        (codeExt_genLabel _ _))))))))
  | .forS init t step body => by
    intro brk s
    have hie1 := fun (st2 : GenSt) => (emitExpr_inv init st2).1
    have hte1 := fun (st2 : GenSt) => (emitExpr_inv t st2).1
    have hte3 := fun (st2 : GenSt) => (emitExpr_inv t st2).2.2
    have hse1 := fun (st2 : GenSt) => (emitExpr_inv step st2).1
    have ih1 := fun (b : Option String) (st2 : GenSt) =>
      (emitStmt_inv body b st2).1
    refine ⟨?_, ?_⟩
    · simp only [emitStmt]
      simp [ih1, hie1, hte1, hte3, hse1, cntS, gvcE]
      try omega
    · simp only [emitStmt]
      exact (codeExt_newLabel _).trans ((codeExt_newLabel _).trans
        (((emitExpr_inv init _).2.1).trans ((codeExt_genLabel _ _).trans
        (((emitExpr_inv t _).2.1).trans ((codeExt_getValue _ _).trans
        ((codeExt_genIfZ _ _ _).trans ((emitStmt_inv body _ _).2.trans
        (((emitExpr_inv step _).2.1).trans ((codeExt_genGoto _ _).trans
        (codeExt_genLabel _ _))))))))))
  | .breakS => by
    intro brk s
    cases brk with
    | none =>
      refine ⟨?_, ?_⟩
      · simp [emitStmt, cntS]
      · exact CodeExt.rfl s
    | some l =>
      refine ⟨?_, ?_⟩
      · simp [emitStmt, cntS]
      · exact codeExt_genGoto l s
  | .returnS e => by
    intro brk s
    obtain ⟨he1, he2, he3⟩ := emitExpr_inv e s
    refine ⟨?_, ?_⟩
    · simp only [emitStmt]
      simp [he1, he3, cntS, gvcE]
      try omega
    · simp only [emitStmt]
      exact he2.trans ((codeExt_getValue _ _).trans (codeExt_genReturn _ _))
  | .printS args => by
    intro brk s
    refine ⟨?_, ?_⟩
    · simp only [emitStmt]
      rw [(emitPrintArgs_inv args s).1]
      simp [cntS]
    · simp only [emitStmt]
      exact (emitPrintArgs_inv args s).2

/-- As `emitStmt_inv`, for the statement loop of `StmtBlock::Emit`. -/
theorem emitStmtList_inv : ∀ (ss : StmtList) (brk : Option String)
    (s : GenSt),
    (emitStmtList ss brk s).localCnt = s.localCnt + cntSL ss
      ∧ CodeExt s (emitStmtList ss brk s)
  | .nil => by
    intro brk s
    exact ⟨by simp [emitStmtList, cntSL], CodeExt.rfl s⟩
  | .cons t ss => by
    intro brk s
    have ih1 := fun (b : Option String) (st2 : GenSt) =>
      (emitStmtList_inv ss b st2).1
    have hh1 := fun (b : Option String) (st2 : GenSt) =>
      (emitStmt_inv t b st2).1
    refine ⟨?_, ?_⟩
    · simp only [emitStmtList]
      simp [ih1, hh1, cntSL]
      try omega
    · simp only [emitStmtList]
      exact (emitStmt_inv t brk s).2.trans (emitStmtList_inv ss brk _).2

end

theorem applyAllocs_spec (ops : List LocalAlloc) :
    ∀ s : GenSt,
      (applyAllocs ops s).1.localCnt = s.localCnt + ops.length
        ∧ (applyAllocs ops s).1.code = s.code
        ∧ (applyAllocs ops s).2.length = ops.length
        ∧ ∀ k : Nat, k < ops.length →
            ∃ l : Location, (applyAllocs ops s).2.get? k = some l
              ∧ l.segment = Segment.fpRelative
              ∧ l.offset
                  = OffsetToFirstLocal
                      - VarSize * ((s.localCnt : Int) + (k : Int)) := by
  induction ops with
  | nil =>
    intro s
    refine ⟨by simp [applyAllocs], by simp [applyAllocs],
      by simp [applyAllocs], ?_⟩
    intro k hk
    exact absurd hk (by simp)
  | cons op ops ih =>
    intro s
    cases op with
    | temp =>
      obtain ⟨ih1, ih2, ih3, ih4⟩ := ih (genTempVar s).1
      refine ⟨?_, ?_, ?_, ?_⟩
      · simp only [applyAllocs]
        rw [ih1]
        simp [genTempVar]
        omega
      · simp only [applyAllocs]
        rw [ih2]
        rfl
      · simp only [applyAllocs]
        simp [ih3]
      · intro k hk
        simp only [applyAllocs]
        cases k with
        | zero =>
          refine ⟨(genTempVar s).2, rfl, rfl, ?_⟩
          simp [genTempVar]
        | succ k =>
          obtain ⟨l, hl1, hl2, hl3⟩ :=
            ih4 k (Nat.lt_of_succ_lt_succ (by simpa using hk))
          refine ⟨l, ?_, hl2, ?_⟩
          · simpa using hl1
          · rw [hl3]
            simp only [genTempVar_localCnt]
            push_cast
            ring
    | localV n =>
      obtain ⟨ih1, ih2, ih3, ih4⟩ := ih (genLocalVar n s).1
      refine ⟨?_, ?_, ?_, ?_⟩
      · simp only [applyAllocs]
        rw [ih1]
        simp [genLocalVar]
        omega
      · simp only [applyAllocs]
        rw [ih2]
        rfl
      · simp only [applyAllocs]
        simp [ih3]
      · intro k hk
        simp only [applyAllocs]
        cases k with
        | zero =>
          refine ⟨(genLocalVar n s).2, rfl, rfl, ?_⟩
          simp [genLocalVar]
        | succ k =>
          obtain ⟨l, hl1, hl2, hl3⟩ :=
            ih4 k (Nat.lt_of_succ_lt_succ (by simpa using hk))
          refine ⟨l, ?_, hl2, ?_⟩
          · simpa using hl1
          · rw [hl3]
            simp only [genLocalVar_localCnt]
            push_cast
            ring

theorem get_set_of_lt : ∀ (l : List Instr) (i : Nat) (a : Instr),
    i < l.length → (l.set i a).get? i = some a
  | [], i, a, h => absurd h (by simp)
  | _ :: _, 0, _, _ => rfl
  | _ :: xs, i + 1, a, h => get_set_of_lt xs i a (Nat.lt_of_succ_lt_succ h)

theorem emitFn_beginFunc (f : FnData) (s : GenSt) (hs : s.localCnt = 0) :
    (emitFn f s).code.get? (s.code.length + 1)
      = some (Instr.BeginFunc (VarSize * (cntS f.body : Int)))
      ∧ (emitFn f s).localCnt = 0 := by
  obtain ⟨hl5, he5⟩ := emitStmt_inv f.body none
    (f.formals.foldl (fun st n => (genParamVar n st).1)
      (if f.isMethod then
        (genParamVar "this" (emit1 (Instr.BeginFunc 0) (genLabel f.label s))).1
      else emit1 (Instr.BeginFunc 0) (genLabel f.label s)))
  have hc4 : (f.formals.foldl (fun st n => (genParamVar n st).1)
      (if f.isMethod then
        (genParamVar "this" (emit1 (Instr.BeginFunc 0) (genLabel f.label s))).1
      else emit1 (Instr.BeginFunc 0) (genLabel f.label s))).code
      = s.code ++ [Instr.Label f.label, Instr.BeginFunc 0] := by
    rw [foldl_genParamVar_code]
    split <;> simp [genParamVar, emit1, genLabel]
  have hl4 : (f.formals.foldl (fun st n => (genParamVar n st).1)
      (if f.isMethod then
        (genParamVar "this" (emit1 (Instr.BeginFunc 0) (genLabel f.label s))).1
      else emit1 (Instr.BeginFunc 0) (genLabel f.label s))).localCnt
      = s.localCnt := by
    rw [foldl_genParamVar_localCnt]
    split <;> simp [genParamVar, emit1, genLabel]
  have hlen : s.code.length + 1 <
      (emitStmt f.body none
        (f.formals.foldl (fun st n => (genParamVar n st).1)
          (if f.isMethod then
            (genParamVar "this"
              (emit1 (Instr.BeginFunc 0) (genLabel f.label s))).1
          else emit1 (Instr.BeginFunc 0) (genLabel f.label s)))).code.length := by
    have hle := he5.length_le
    rw [hc4] at hle
    simp at hle
    omega
  have hidx : (genLabel f.label s).code.length = s.code.length + 1 := by
    simp [genLabel, emit1]
  refine ⟨?_, ?_⟩
  · simp only [emitFn, genEndFunc]
    rw [List.get?_append (by simpa using hlen), hidx,
      get_set_of_lt _ _ _ hlen, getFrameSize, hl5, hl4, hs]
    simp
  · rfl

/-- C10: named local variables and compiler temporaries draw their
offsets from one shared counter — starting from a fresh per-function
state, the k-th allocation (local or temporary, in either order)
receives the fpRelative offset `OffsetToFirstLocal - VarSize * k`, all
such offsets are pairwise distinct, `GetFrameSize` returns `VarSize`
times the total allocation count, and `FnDecl::Emit` backpatches
exactly `VarSize *` (total allocations of the body) into the function's
`BeginFunc` instruction. -/
theorem c10_shared_counter_frame_size :
    (∀ (ops : List LocalAlloc) (s : GenSt), s.localCnt = 0 →
      (applyAllocs ops s).2.length = ops.length
        ∧ (∀ k : Nat, k < ops.length →
            ∃ l : Location, (applyAllocs ops s).2.get? k = some l
              ∧ l.segment = Segment.fpRelative
              ∧ l.offset = OffsetToFirstLocal - VarSize * (k : Int))
        ∧ (∀ j k : Nat, j < ops.length → k < ops.length → j ≠ k →
            ∀ lj lk : Location,
              (applyAllocs ops s).2.get? j = some lj →
              (applyAllocs ops s).2.get? k = some lk →
              lj.offset ≠ lk.offset)
        ∧ getFrameSize (applyAllocs ops s).1 = VarSize * (ops.length : Int))
    ∧ (∀ (f : FnData) (s : GenSt), s.localCnt = 0 →
        (emitFn f s).code.get? (s.code.length + 1)
          = some (Instr.BeginFunc (VarSize * (cntS f.body : Int)))) := by
  constructor
  · intro ops s hs
    obtain ⟨h1, _, h3, h4⟩ := applyAllocs_spec ops s
    refine ⟨h3, ?_, ?_, ?_⟩
    · intro k hk
      obtain ⟨l, hl1, hl2, hl3⟩ := h4 k hk
      exact ⟨l, hl1, hl2, by rw [hl3, hs]; push_cast; ring⟩
    · intro j k hj hk hjk lj lk hgj hgk
      obtain ⟨l1, hl11, _, hl13⟩ := h4 j hj
      obtain ⟨l2, hl21, _, hl23⟩ := h4 k hk
      rw [hgj] at hl11
      rw [hgk] at hl21
      cases hl11
      cases hl21
      rw [hl13, hl23, hs]
      simp [OffsetToFirstLocal, VarSize]
      omega
    · rw [getFrameSize, h1, hs]
      simp
  · intro f s hs
    exact (emitFn_beginFunc f s hs).1

/-- Witness for C10 at concrete inputs: one local then one temporary
from a fresh state give offsets -8 and -12, and lowering
`int main() { return 0; }` backpatches `BeginFunc 4` (one temporary for
the constant). -/
theorem c10_shared_counter_frame_size_witness :
    st0.localCnt = 0
      ∧ (∃ l : Location,
          (applyAllocs [LocalAlloc.localV "x", LocalAlloc.temp] st0).2.get? 1
            = some l
          ∧ l.segment = Segment.fpRelative
          ∧ l.offset = OffsetToFirstLocal - VarSize * (1 : Int))
      ∧ (emitFn ⟨"main", false, [],
            Stmt.returnS (Expr.intConst 0)⟩ st0).code.get?
          (st0.code.length + 1)
        = some (Instr.BeginFunc
            (VarSize * (cntS (Stmt.returnS (Expr.intConst 0)) : Int))) := by
  refine ⟨rfl, ?_, ?_⟩
  · exact (c10_shared_counter_frame_size.1
      [LocalAlloc.localV "x", LocalAlloc.temp] st0 rfl).2.1 1 (by decide)
  · exact c10_shared_counter_frame_size.2
      ⟨"main", false, [], Stmt.returnS (Expr.intConst 0)⟩ st0 rfl

end Decaf
